import Mathlib

/-!
Verification of the guardrails / session backend (ai-demo-3).

This file gives a shallow embedding, in Lean 4, of the parts of the
backend that the specification's claims are about:

* `app/guardrails.py` — `GuardrailViolation`, `GuardrailCheckResult`,
  `GuardrailsEngine._check_language`, `GuardrailsEngine.check`;
* `app/guardrails_loader.py` — `GuardrailRule.parse_enabled`;
* `app/guardrails_audit.py` — `GuardrailsAuditLogger._create_snippet`
  and `_redact_pii_patterns`;
* `app/tools.py` — `handle_lookup_hcp_tool`, `dispatch_tool_call`;
* `app/services/session_manager.py` — `SessionManager.create_session`;
* `app/services/nova_sonic_client.py` — `NovaSonicClient.get_events_stream`
  together with the reactivex `Subject` it subscribes to.

Python strings are modelled by `String` (`str.strip` by `String.trim`,
`str.lower`/`str.upper` by the ASCII `String.toLower`/`String.toUpper`,
`len` by `String.length`); Python `None`-able values by `Option`;
raised exceptions by `Except`; dictionaries by association lists.
Functions from excluded collaborators (the `re` library inside the rule
matchers, the warehouse client, the webhook client) are abstracted as
function parameters, except for the four audit-redaction regexes, which
are embedded concretely because the claims quantify over their behaviour.
-/

namespace Demo

/-! ## Python string primitives

The embeddings below avoid the iterator-based `String` library functions
(whose well-founded recursions do not reduce inside the kernel) in favour
of list-based equivalents, so that every definition in this file evaluates
by `decide`/`rfl` on concrete inputs.  Each primitive states which Python
operation it models, reading Python's character classes in ASCII. -/

/-- Apply a character-wise function to a string. -/
def mapChars (f : Char → Char) (s : String) : String :=
  String.mk (s.toList.map f)

/-- Python `str.upper` (ASCII). -/
def pyUpper (s : String) : String := mapChars Char.toUpper s

/-- Python `str.lower` (ASCII). -/
def pyLower (s : String) : String := mapChars Char.toLower s

/-- ASCII whitespace, the `\s` class of the `re` module and the characters
`str.strip` removes. -/
def spaceChar (c : Char) : Bool :=
  c = ' ' || c = '\t' || c = '\n' || c = '\r' || c = '\x0b' || c = '\x0c'

/-- Python `str.strip()`: drop leading and trailing whitespace. -/
def pyStrip (s : String) : String :=
  String.mk (((s.toList.dropWhile spaceChar).reverse.dropWhile spaceChar).reverse)

/-- Python `s.startswith(pre)`. -/
def pyStartsWith (s pre : String) : Bool :=
  pre.toList.isPrefixOf s.toList

/-- Python `s[:n]`. -/
def pyTake (s : String) (n : Nat) : String := String.mk (s.toList.take n)

/-! ## guardrails.py : data model -/

/-- Embedding of `GuardrailViolation` (guardrails.py:26-57).  All optional
constructor arguments become `Option String`. -/
structure GuardrailViolation where
  violated : Bool
  rule_id : Option String
  category : Option String
  severity : Option String
  action_message : Option String
  noncompliance_description : Option String
  matched_text : Option String
deriving Repr, DecidableEq

namespace GuardrailViolation

/-- Embedding of `GuardrailViolation.should_block` (guardrails.py:59-62). -/
def should_block (v : GuardrailViolation) : Bool :=
  v.violated && v.severity == some "block"

/-- Embedding of `GuardrailViolation.should_rewrite` (guardrails.py:64-67). -/
def should_rewrite (v : GuardrailViolation) : Bool :=
  v.violated && v.severity == some "rewrite"

/-- Embedding of `GuardrailViolation.should_warn` (guardrails.py:69-72). -/
def should_warn (v : GuardrailViolation) : Bool :=
  v.violated && v.severity == some "warn"

end GuardrailViolation

/-- Embedding of `GuardrailCheckResult` (guardrails.py:75-132): the ordered
list of violations plus the list of matched rule ids. -/
structure GuardrailCheckResult where
  violations : List GuardrailViolation
  all_matched_rules : List String
deriving Repr, DecidableEq

/-- Embedding of `GuardrailCheckResult.__init__` (guardrails.py:78-80): a
fresh result with no violations. -/
def GuardrailCheckResult.empty : GuardrailCheckResult := ⟨[], []⟩

namespace GuardrailCheckResult

/-- Embedding of `GuardrailCheckResult.add_violation` (guardrails.py:82-86). -/
def add_violation (r : GuardrailCheckResult) (v : GuardrailViolation) :
    GuardrailCheckResult :=
  { violations := r.violations ++ [v]
    all_matched_rules :=
      match v.rule_id with
      | some rid => r.all_matched_rules ++ [rid]
      | none => r.all_matched_rules }

/-- Embedding of `GuardrailCheckResult.has_violations` (guardrails.py:88-91). -/
def has_violations (r : GuardrailCheckResult) : Bool :=
  r.violations.length > 0

/-- Embedding of the `severity_order.get(v.severity, 999)` key used by
`highest_severity_violation` (guardrails.py:99-102): the dictionary maps
`block`, `rewrite`, `warn` to 0, 1, 2 and everything else (including a
missing severity) to the default 999. -/
def severityOrder (s : Option String) : Nat :=
  match s with
  | some "block" => 0
  | some "rewrite" => 1
  | some "warn" => 2
  | _ => 999

/-- Embedding of Python's `min(iterable, key=...)` for the violation list:
it walks the list and keeps the first element whose key is minimal
(later elements replace the current best only on a strictly smaller key). -/
def minBySeverity (v : GuardrailViolation) (vs : List GuardrailViolation) :
    GuardrailViolation :=
  vs.foldl
    (fun best next =>
      if severityOrder next.severity < severityOrder best.severity then next
      else best)
    v

/-- Embedding of `GuardrailCheckResult.highest_severity_violation`
(guardrails.py:93-103). -/
def highest_severity_violation (r : GuardrailCheckResult) :
    Option GuardrailViolation :=
  match r.violations with
  | [] => none
  | v :: vs => some (minBySeverity v vs)

/-- Embedding of `GuardrailCheckResult.should_block` (guardrails.py:105-108). -/
def should_block (r : GuardrailCheckResult) : Bool :=
  r.violations.any (·.should_block)

/-- Embedding of `GuardrailCheckResult.should_rewrite` (guardrails.py:110-115):
false whenever the result blocks, otherwise true iff some violation
rewrites. -/
def should_rewrite (r : GuardrailCheckResult) : Bool :=
  if r.should_block then false
  else r.violations.any (·.should_rewrite)

/-- Embedding of `GuardrailCheckResult.action_message` (guardrails.py:117-121). -/
def action_message (r : GuardrailCheckResult) : Option String :=
  match r.highest_severity_violation with
  | some v => v.action_message
  | none => none

end GuardrailCheckResult

/-! ## guardrails_loader.py : rule model and `parse_enabled` -/

/-- Embedding of `GuardrailRule` (guardrails_loader.py:15-25); the optional
`notes` column carries no behaviour and is omitted. -/
structure GuardrailRule where
  rule_id : String
  category : String
  pattern_type : String
  pattern : String
  severity : String
  action_message : String
  noncompliance_description : String
  enabled : Bool
deriving Repr, DecidableEq

/-- Embedding of `LanguagePolicy` (guardrails_loader.py:48-58). -/
structure LanguagePolicy where
  allowed_locales : List String
  fallback_message : String
deriving Repr, DecidableEq

/-- Embedding of the string branch of `GuardrailRule.parse_enabled`
(guardrails_loader.py:41-45): `v.upper() in ['TRUE', 'YES', '1', 'ENABLED']`. -/
def parse_enabled (v : String) : Bool :=
  pyUpper v ∈ ["TRUE", "YES", "1", "ENABLED"]

/-- Case-insensitive equality of strings, the comparison the spec appeals to
when it says `enabled` accepts "case-insensitive TRUE/YES/1/ENABLED". -/
def ciEq (a b : String) : Bool :=
  pyUpper a == pyUpper b

/-- Embedding of `get_enabled_rules` (guardrails_loader.py:239-242) as a
function of the loaded rule list. -/
def enabledRules (rules : List GuardrailRule) : List GuardrailRule :=
  rules.filter (·.enabled)

/-! ## guardrails.py : language policy check and `check` -/

/-- Embedding of the locale normalisation in `_check_language`
(guardrails.py:193): `locale.replace('_', '-').lower()`. -/
def normalizeLocale (s : String) : String :=
  pyLower (mapChars (fun c => if c = '_' then '-' else c) s)

/-- Embedding of `locale_norm.split('-')[0]` (guardrails.py:197): the prefix
of the string before the first dash (the whole string when it has none). -/
def baseTag (s : String) : String :=
  String.mk (s.toList.takeWhile (· ≠ '-'))

/-- Embedding of the `is_allowed` test of `_check_language`
(guardrails.py:192-203): after normalising both sides, the locale is allowed
when it equals an allowed entry, starts with an allowed entry, or shares its
base language tag with an allowed entry. -/
def isAllowedLocale (allowed_locales : List String) (locale : String) : Bool :=
  let locale_norm := normalizeLocale locale
  let allowed_norm := allowed_locales.map normalizeLocale
  let locale_base := baseTag locale_norm
  allowed_norm.any fun allowed =>
    locale_norm == allowed || pyStartsWith locale_norm allowed ||
      locale_base == baseTag allowed

/-- Modelled from the spec's wording of the locale rule, for comparison with
the source's `isAllowedLocale`: accept when the normalised input "equals, or
is a dash-prefixed extension of, any allowed entry, or if the base language
tag (prefix before first `-`) matches any allowed base tag". -/
def specLocaleAccepted (allowed_locales : List String) (locale : String) : Bool :=
  let locale_norm := normalizeLocale locale
  allowed_locales.any fun a =>
    let an := normalizeLocale a
    locale_norm == an || pyStartsWith locale_norm (an ++ "-") ||
      baseTag locale_norm == baseTag an

/-- The violation `_check_language` emits on rejection
(guardrails.py:205-214). -/
def languageViolation (policy : LanguagePolicy) (locale : String) :
    GuardrailViolation :=
  { violated := true
    rule_id := some "LANGUAGE_001"
    category := some "LANGUAGE_EN_ONLY"
    severity := some "block"
    action_message := some policy.fallback_message
    noncompliance_description := some ("Non-English locale detected: " ++ locale)
    matched_text := some locale }

/-- Embedding of `GuardrailsEngine._check_language` (guardrails.py:180-216).
Python's `if not locale` treats both `None` and the empty string as absent. -/
def checkLanguage (policy : Option LanguagePolicy) (locale : Option String) :
    Option GuardrailViolation :=
  match policy with
  | none => none
  | some p =>
    match locale with
    | none => none
    | some loc =>
      if loc = "" then none
      else if isAllowedLocale p.allowed_locales loc then none
      else some (languageViolation p loc)

/-- Embedding of `GuardrailsEngine._check_rule` (guardrails.py:264-299).
The two pattern matchers call into Python's `re` library, an excluded
collaborator, so they are taken as parameters `matchRegex`/`matchKeyword`
(pattern → text → matched text); `llm_hint` and unknown pattern types
produce no match. -/
def checkRule (matchRegex matchKeyword : String → String → Option String)
    (rule : GuardrailRule) (text : String) : Option GuardrailViolation :=
  let matched_text : Option String :=
    if rule.pattern_type = "regex" then matchRegex rule.pattern text
    else if rule.pattern_type = "keyword" then matchKeyword rule.pattern text
    else none
  match matched_text with
  | some m =>
    some { violated := true
           rule_id := some rule.rule_id
           category := some rule.category
           severity := some rule.severity
           action_message := some rule.action_message
           noncompliance_description := some rule.noncompliance_description
           matched_text := some m }
  | none => none

/-- Embedding of `GuardrailsEngine.check` (guardrails.py:218-262):
empty or whitespace-only text short-circuits with an empty result; a
blocking language violation short-circuits before any rule is evaluated;
otherwise every enabled rule is evaluated and each match adds a violation. -/
def check (matchRegex matchKeyword : String → String → Option String)
    (policy : Option LanguagePolicy) (rules : List GuardrailRule)
    (text_segment : String) (locale : Option String) : GuardrailCheckResult :=
  if text_segment = "" ∨ pyStrip text_segment = "" then .empty
  else
    let afterLang : GuardrailCheckResult × Bool :=
      match checkLanguage policy locale with
      | some lv =>
        (GuardrailCheckResult.add_violation .empty lv, lv.should_block)
      | none => (.empty, false)
    if afterLang.2 then afterLang.1
    else
      (enabledRules rules).foldl
        (fun r rule =>
          match checkRule matchRegex matchKeyword rule text_segment with
          | some v => r.add_violation v
          | none => r)
        afterLang.1

/-! ## guardrails_audit.py : snippet creation (redaction is defined later) -/

/-- The fixed snippet returned for short or empty texts
(guardrails_audit.py:98-99). -/
def redactedMarker : String := "[REDACTED]"

/-! ## guardrails_audit.py : the four redaction regexes

`_redact_pii_patterns` (guardrails_audit.py:109-125) applies, in order,
`re.sub` with the patterns

  1. `\d{3}-\d{2}-\d{4}`                                  → `[SSN]`
  2. `\(?\d{3}\)?[-.\s]?\d{3}[-.\s]?\d{4}`                → `[PHONE]`
  3. `\b[A-Za-z0-9._%+-]+@[A-Za-z0-9.-]+\.[A-Z|a-z]{2,}\b` → `[EMAIL]`
  4. `\b\d{6,}\b`                                          → `[ID]`

These are embedded concretely: each pattern becomes a backtracking matcher
over `List Char` that, at a given position, returns the length of the match
Python's engine would choose there (greedy quantifiers, longest-first
backtracking), and `re.sub` becomes a left-to-right scan replacing leftmost
non-overlapping matches.  Character classes use the ASCII readings of
`\d`, `\w` and `\s`. -/

/-- ASCII `\w`: letters, digits and underscore. -/
def wordChar (c : Char) : Bool := c.isAlphanum || c = '_'

/-- Separator class `[-.\s]` of the phone pattern. -/
def sepChar (c : Char) : Bool := c = '-' || c = '.' || spaceChar c

/-- Local-part class `[A-Za-z0-9._%+-]` of the email pattern. -/
def localChar (c : Char) : Bool :=
  c.isAlphanum || c = '.' || c = '_' || c = '%' || c = '+' || c = '-'

/-- Domain class `[A-Za-z0-9.-]` of the email pattern. -/
def domainChar (c : Char) : Bool := c.isAlphanum || c = '.' || c = '-'

/-- Top-level-domain class `[A-Z|a-z]` of the email pattern (the class as
written in the source literally includes the bar). -/
def tldChar (c : Char) : Bool := c.isAlpha || c = '|'

/-- Whether an optional character is a word character; `none` stands for the
start or end of the string and is never a word character. -/
def isWordO : Option Char → Bool
  | none => false
  | some c => wordChar c

/-- Matcher state: the character just before the current position (for `\b`),
the remaining input, and the number of characters consumed so far. -/
structure MState where
  prev : Option Char
  rest : List Char
  len : Nat
deriving Repr

/-- Consume one character satisfying `p`. -/
def mChar (p : Char → Bool) (st : MState) (k : MState → Option Nat) :
    Option Nat :=
  match st.rest with
  | c :: r => if p c then k ⟨some c, r, st.len + 1⟩ else none
  | [] => none

/-- Greedy `x?`: try consuming a character satisfying `p` first, fall back to
consuming nothing. -/
def mOpt (p : Char → Bool) (st : MState) (k : MState → Option Nat) :
    Option Nat :=
  mChar p st k <|> k st

/-- Exactly `n` characters satisfying `p` (the `x{n}` quantifier). -/
def mExact (p : Char → Bool) : Nat → MState → (MState → Option Nat) → Option Nat
  | 0, st, k => k st
  | n + 1, st, k => mChar p st fun st2 => mExact p n st2 k

/-- Length of the maximal run of characters satisfying `p` at the head. -/
def runLength (p : Char → Bool) : List Char → Nat
  | [] => 0
  | c :: r => if p c then runLength p r + 1 else 0

/-- Advance the matcher state by `n` characters of its remaining input. -/
def consume (st : MState) (n : Nat) : MState :=
  ⟨if n = 0 then st.prev else st.rest.get? (n - 1),
   st.rest.drop n, st.len + n⟩

/-- Greedy bounded repetition, longest first: try consuming `j, j-1, …` many
characters of the current `p`-run (never fewer than `low`), backtracking into
the continuation. -/
def mManyFrom (p : Char → Bool) (low : Nat) (st : MState)
    (k : MState → Option Nat) : Nat → Option Nat
  | 0 => if low = 0 then k st else none
  | j + 1 =>
    (if low ≤ j + 1 then k (consume st (j + 1)) else none) <|>
      mManyFrom p low st k j

/-- Greedy `x{low,}`: repetition with a lower bound, longest first over the
maximal `p`-run at the current position. -/
def mMany (p : Char → Bool) (low : Nat) (st : MState)
    (k : MState → Option Nat) : Option Nat :=
  mManyFrom p low st k (runLength p st.rest)

/-- The `\b` zero-width assertion: exactly one side of the current position
is a word character. -/
def mBoundary (st : MState) (k : MState → Option Nat) : Option Nat :=
  if isWordO st.prev != isWordO st.rest.head? then k st else none

/-- Accept, reporting the number of characters the match consumed. -/
def mDone (st : MState) : Option Nat := some st.len

/-- Matcher for the SSN pattern `\d{3}-\d{2}-\d{4}` at one position. -/
def ssnAt (prev : Option Char) (l : List Char) : Option Nat :=
  mExact Char.isDigit 3 ⟨prev, l, 0⟩ fun st =>
  mChar (· = '-') st fun st =>
  mExact Char.isDigit 2 st fun st =>
  mChar (· = '-') st fun st =>
  mExact Char.isDigit 4 st mDone

/-- Matcher for the phone pattern `\(?\d{3}\)?[-.\s]?\d{3}[-.\s]?\d{4}`
at one position. -/
def phoneAt (prev : Option Char) (l : List Char) : Option Nat :=
  mOpt (· = '(') ⟨prev, l, 0⟩ fun st =>
  mExact Char.isDigit 3 st fun st =>
  mOpt (· = ')') st fun st =>
  mOpt sepChar st fun st =>
  mExact Char.isDigit 3 st fun st =>
  mOpt sepChar st fun st =>
  mExact Char.isDigit 4 st mDone

/-- Matcher for the email pattern
`\b[A-Za-z0-9._%+-]+@[A-Za-z0-9.-]+\.[A-Z|a-z]{2,}\b` at one position. -/
def emailAt (prev : Option Char) (l : List Char) : Option Nat :=
  mBoundary ⟨prev, l, 0⟩ fun st =>
  mMany localChar 1 st fun st =>
  mChar (· = '@') st fun st =>
  mMany domainChar 1 st fun st =>
  mChar (· = '.') st fun st =>
  mMany tldChar 2 st fun st =>
  mBoundary st mDone

/-- Matcher for the digit-run pattern `\b\d{6,}\b` at one position. -/
def idAt (prev : Option Char) (l : List Char) : Option Nat :=
  mBoundary ⟨prev, l, 0⟩ fun st =>
  mMany Char.isDigit 6 st fun st =>
  mBoundary st mDone

/-- Decomposition predicate for an optional single-character piece (`x?`):
the piece is empty or one character of the class. -/
def optOf (p : Char → Bool) (w : List Char) : Prop :=
  w = [] ∨ ∃ c, p c = true ∧ w = [c]

/-- Decomposition predicate for exactly `j` characters of a class. -/
def runOf (p : Char → Bool) (j : Nat) (w : List Char) : Prop :=
  w.length = j ∧ w.all p = true

/-- A match of the SSN pattern occupies the first `n` characters:
three digits, dash, two digits, dash, four digits. -/
def ssnPre (n : Nat) (l : List Char) : Prop :=
  n = 11 ∧
    ∃ w1 w2 w3 : List Char,
      runOf Char.isDigit 3 w1 ∧ runOf Char.isDigit 2 w2 ∧
      runOf Char.isDigit 4 w3 ∧
      l.take n = w1 ++ '-' :: w2 ++ '-' :: w3

/-- A match of the phone pattern occupies the first `n` characters:
optional `(`, three digits, optional `)`, optional separator, three digits,
optional separator, four digits. -/
def phonePre (n : Nat) (l : List Char) : Prop :=
  ∃ p1 d1 p2 s1 d2 s2 d3 : List Char,
    optOf (· = '(') p1 ∧ runOf Char.isDigit 3 d1 ∧ optOf (· = ')') p2 ∧
    optOf sepChar s1 ∧ runOf Char.isDigit 3 d2 ∧ optOf sepChar s2 ∧
    runOf Char.isDigit 4 d3 ∧
    n = p1.length + 3 + p2.length + s1.length + 3 + s2.length + 4 ∧
    l.take n = p1 ++ d1 ++ p2 ++ s1 ++ d2 ++ s2 ++ d3

/-- A match of the email pattern (without its two `\b` context conditions)
occupies the first `n` characters: a non-empty local part, `@`, a non-empty
domain part, `.`, a top-level part of at least two characters. -/
def emailPre (n : Nat) (l : List Char) : Prop :=
  ∃ w1 w2 w3 : List Char,
    1 ≤ w1.length ∧ w1.all localChar = true ∧
    1 ≤ w2.length ∧ w2.all domainChar = true ∧
    2 ≤ w3.length ∧ w3.all tldChar = true ∧
    n = w1.length + 1 + w2.length + 1 + w3.length ∧
    l.take n = w1 ++ '@' :: w2 ++ '.' :: w3

/-- A match of the digit-run pattern (without its two `\b` context
conditions) occupies the first `n ≥ 6` characters, all digits. -/
def idPre (n : Nat) (l : List Char) : Prop :=
  6 ≤ n ∧ (l.take n).length = n ∧ (l.take n).all Char.isDigit = true

/-- Embedding of `re.sub(pattern, ph, ·)`: scan left to right, replacing the
leftmost match, then continue right after it (Python's non-overlapping
semantics); `prev` is the input character just before the current position,
which the continuation's `\b` assertions consult.  None of the four patterns
can match the empty string, so a successful match always consumes at least
one character; `max n 1` makes that explicit for termination. -/
def subAtF (matchAt : Option Char → List Char → Option Nat) (ph : List Char) :
    Nat → Option Char → List Char → List Char
  | 0, _, _ => []
  | fuel + 1, prev, l =>
    match l with
    | [] => []
    | c :: r =>
      match matchAt prev (c :: r) with
      | some n =>
        ph ++ subAtF matchAt ph fuel ((c :: r).get? (max n 1 - 1))
          ((c :: r).drop (max n 1))
      | none => c :: subAtF matchAt ph fuel (some c) r

/-- The scan of `subAtF` consumes at least one input character per step, so
the input length is always enough fuel. -/
def subAt (matchAt : Option Char → List Char → Option Nat) (ph : List Char)
    (prev : Option Char) (l : List Char) : List Char :=
  subAtF matchAt ph l.length prev l

/-- Run one `re.sub` pass over a whole string (no character precedes the
first position). -/
def reSub (matchAt : Option Char → List Char → Option Nat) (ph : List Char)
    (l : List Char) : List Char :=
  subAt matchAt ph none l

/-- Embedding of `GuardrailsAuditLogger._redact_pii_patterns`
(guardrails_audit.py:109-125): the four substitutions in source order. -/
def redactPiiList (l : List Char) : List Char :=
  reSub idAt "[ID]".toList
    (reSub emailAt "[EMAIL]".toList
      (reSub phoneAt "[PHONE]".toList
        (reSub ssnAt "[SSN]".toList l)))

/-- String-level wrapper of `redactPiiList`. -/
def redactPii (s : String) : String := String.mk (redactPiiList s.toList)

/-- The last `n` characters of a string (Python's `text[-n:]`). -/
def takeLast (s : String) (n : Nat) : String :=
  String.mk (s.toList.drop (s.toList.length - n))

/-- Embedding of `GuardrailsAuditLogger._create_snippet`
(guardrails_audit.py:93-107) with explicit `max_chars` (the source's default
and only used value is 20): short or empty texts collapse to the fixed
marker, longer texts keep their first and last `max_chars` characters joined
by an ellipsis and are then redacted. -/
def createSnippet (max_chars : Nat) (text : String) : String :=
  if text = "" ∨ text.length ≤ max_chars * 2 then redactedMarker
  else redactPii (pyTake text max_chars ++ "..." ++ takeLast text max_chars)

/-- The snippet stored in an audit entry by `log_check`
(guardrails_audit.py:172): `_create_snippet(text)` at the default width. -/
def auditSnippet (text : String) : String := createSnippet 20 text

/-- Whether some position of the list admits a match (the search semantics
of `re.search`): `prev` is the character before the first considered
position and is threaded along for the `\b` assertions. -/
def hasMatchFrom (m : Option Char → List Char → Option Nat) :
    Option Char → List Char → Bool
  | prev, [] => (m prev []).isSome
  | prev, c :: r => (m prev (c :: r)).isSome || hasMatchFrom m (some c) r

/-- Whether the string contains a match of the pattern anywhere. -/
def hasMatch (m : Option Char → List Char → Option Nat) (s : String) : Bool :=
  hasMatchFrom m none s.toList

/-- Whether the string contains a run of at least `k` consecutive ASCII
digits (the plain reading of "a run of six or more digits", with no
word-boundary requirement). -/
def containsDigitRun (k : Nat) (s : String) : Bool :=
  s.toList.tails.any fun t => k ≤ runLength Char.isDigit t

/-! ## tools.py : HCP lookup handler and tool dispatch -/

/-- Result shape of `handle_lookup_hcp_tool` (tools.py:21-111). -/
structure LookupResult where
  found : Bool
  hcp_id : Option String
  hco_id : Option String
  hco_name : Option String
  source : Option String
  error : Option String
deriving Repr, DecidableEq

/-- Row returned by the warehouse lookup `fetch_hcp_by_name`. -/
structure RedshiftHcp where
  name : String
  hcp_id : String
  hco_id : String
  hco_name : String
deriving Repr, DecidableEq

/-- Embedding of `handle_lookup_hcp_tool` (tools.py:21-111).  The warehouse
query `fetch_hcp_by_name` performs I/O and may raise, so it is a parameter
returning `Except` (`.error` models a raised exception, `.ok none` a miss);
the static-map lookup `lookup_hcp_id` from `app/prompting.py` is a parameter
as well.  The argument dictionary is reduced to its `name` field
(`arguments.get('name', '')` yields `""` when the field is absent). -/
def handleLookupHcpTool
    (fetch_hcp_by_name : String → Except String (Option RedshiftHcp))
    (lookup_hcp_id : String → Option String)
    (args_name : Option String) : LookupResult :=
  let name := pyStrip (args_name.getD "")
  if name = "" ∨ name.length < 2 then
    ⟨false, none, none, none, none, some "Name must be at least 2 characters"⟩
  else
    let fromStatic : Unit → LookupResult := fun _ =>
      match lookup_hcp_id name with
      | some hcp_id => ⟨true, some hcp_id, none, none, some "static", none⟩
      | none => ⟨false, none, none, none, none, none⟩
    match fetch_hcp_by_name name with
    | .ok (some row) =>
      ⟨true, some row.hcp_id, some row.hco_id, some row.hco_name,
        some "redshift", none⟩
    | .ok none => fromStatic ()
    | .error _ => fromStatic ()

/-- Values appearing in a tool-result dictionary. -/
inductive DictVal where
  | str (v : String)
  | strList (v : List String)
deriving Repr, DecidableEq

/-- A tool-result dictionary, modelled as an association list. -/
def ToolDict := List (String × DictVal)
deriving Repr, DecidableEq

/-- The fixed handler table of `dispatch_tool_call` (tools.py:325-330),
in declaration order. -/
def availableTools : List String :=
  ["lookupHcpTool", "insertCallTool", "emitN8nEventTool",
   "createFollowUpTaskTool"]

/-- Embedding of `dispatch_tool_call` (tools.py:308-362).  A handler's
behaviour is a parameter `run` returning `Except` — `.error e` models the
handler raising an exception with message `e`, which the dispatcher's
`try/except` converts into a structured error dictionary.  An unknown tool
name yields the structured unknown-tool error listing the available tools.
The function is total: no input makes it raise. -/
def dispatchToolCall (run : String → ToolDict → Except String ToolDict)
    (tool_name : String) (arguments : ToolDict) : ToolDict :=
  if tool_name ∈ availableTools then
    match run tool_name arguments with
    | .ok result => result
    | .error e =>
      [("error", .str ("Tool execution failed: " ++ e)),
       ("tool_name", .str tool_name)]
  else
    [("error", .str ("Unknown tool: " ++ tool_name)),
     ("available_tools", .strList availableTools)]

/-! ## session_manager.py : session registry and capacity ceiling -/

/-- Embedding of `SessionStatus` (models/session.py:8-13). -/
inductive SessionStatus where
  | created
  | active
  | ended
  | error
deriving Repr, DecidableEq

/-- Embedding of `SessionInfo` with the fields `create_session` writes;
timestamps are abstract instants. -/
structure SessionInfo where
  session_id : String
  status : SessionStatus
  created_at : Nat
  last_activity : Nat
deriving Repr, DecidableEq

/-- Embedding of the mutable state of `SessionManager`
(session_manager.py:16-18): the client map and the info map, as association
lists keyed by session id; the client type is abstract. -/
structure SessionManagerState (Client : Type) where
  sessions : List (String × Client)
  session_info : List (String × SessionInfo)

/-- Embedding of the active-session count computed by `create_session`
(session_manager.py:28-31). -/
def activeSessionCount {Client : Type} (st : SessionManagerState Client) : Nat :=
  (st.session_info.filter fun p => p.2.status == SessionStatus.active).length

/-- Embedding of `SessionManager.create_session` (session_manager.py:21-57).
Constructing the client and opening its stream are provider I/O, so they are
abstracted as `newClient` (the constructed `NovaSonicClient`, carrying its
fresh `session_id`) and `initOk` (whether `initialize_stream` succeeds;
its failure re-raises).  The function returns the raised-or-returned outcome
together with the registry state afterwards: the capacity check happens
before any mutation, so both failure paths leave the state unchanged. -/
def createSession {Client : Type} (max_concurrent_sessions : Nat) (now : Nat)
    (newClient : Client) (newSessionId : String) (initOk : Bool)
    (st : SessionManagerState Client) :
    Except String (String × Client) × SessionManagerState Client :=
  if activeSessionCount st ≥ max_concurrent_sessions then
    (.error ("Maximum concurrent sessions (" ++
      toString max_concurrent_sessions ++ ") reached"), st)
  else if initOk then
    (.ok (newSessionId, newClient),
     { sessions := st.sessions ++ [(newSessionId, newClient)]
       session_info := st.session_info ++
         [(newSessionId, ⟨newSessionId, SessionStatus.active, now, now⟩)] })
  else
    (.error "Failed to create session", st)

/-! ## nova_sonic_client.py : output event bus and `get_events_stream`

`NovaSonicClient.output_subject` is a reactivex `Subject`; its library
semantics are a subscriber list to which `subscribe` appends
unconditionally and whose `on_next` delivers the event to every current
subscriber.  `get_events_stream` (nova_sonic_client.py:789-819) creates a
fresh queue, subscribes it to the subject, and drains it; it performs no
check of existing subscribers, so it never signals a conflict. -/

/-- The output bus: each subscriber (keyed by an id) has the queue of events
delivered to it so far. -/
structure BusState where
  next_id : Nat
  queues : List (Nat × List String)
deriving Repr, DecidableEq

/-- A bus with no subscribers. -/
def BusState.empty : BusState := ⟨0, []⟩

/-- Embedding of `Subject.subscribe` as called by `get_events_stream`
(nova_sonic_client.py:803-807): register a fresh queue as one more
subscriber and return its id.  There is no conflict path: the result type
has no error alternative, matching the source, which guards nothing. -/
def getEventsStream (st : BusState) : Nat × BusState :=
  (st.next_id, ⟨st.next_id + 1, st.queues ++ [(st.next_id, [])]⟩)

/-- Embedding of `Subject.on_next` as used by the response loop: the event
is appended to every subscriber's queue. -/
def busOnNext (event : String) (st : BusState) : BusState :=
  ⟨st.next_id, st.queues.map fun p => (p.1, p.2 ++ [event])⟩

/-- The events delivered to subscriber `i` so far. -/
def deliveredTo (st : BusState) (i : Nat) : List String :=
  match st.queues.find? (fun p => p.1 == i) with
  | some p => p.2
  | none => []

/-! ## Theorems -/

/-- Strings that are their own uppercasing compare case-insensitively with
`v` exactly when they equal `pyUpper v`. -/
theorem ciEq_iff_toUpper (v t : String) (h : pyUpper t = t) :
    ciEq v t = true ↔ pyUpper v = t := by
  simp [ciEq, h]

/-- C8: a rule-table `enabled` value parses to true exactly when it equals
one of `TRUE`, `YES`, `1`, `ENABLED` up to case (here: up to `toUpper`);
every other string parses to false. -/
theorem claim_C8_parse_enabled (v : String) :
    parse_enabled v = true ↔
      ∃ t ∈ (["TRUE", "YES", "1", "ENABLED"] : List String), ciEq v t = true := by
  constructor
  · intro h
    unfold parse_enabled at h
    rw [decide_eq_true_eq] at h
    simp only [List.mem_cons, List.not_mem_nil, or_false] at h
    rcases h with h | h | h | h
    · exact ⟨"TRUE", by simp, (ciEq_iff_toUpper v "TRUE" (by decide)).mpr h⟩
    · exact ⟨"YES", by simp, (ciEq_iff_toUpper v "YES" (by decide)).mpr h⟩
    · exact ⟨"1", by simp, (ciEq_iff_toUpper v "1" (by decide)).mpr h⟩
    · exact ⟨"ENABLED", by simp, (ciEq_iff_toUpper v "ENABLED" (by decide)).mpr h⟩
  · rintro ⟨t, ht, hci⟩
    unfold parse_enabled
    rw [decide_eq_true_eq]
    simp only [List.mem_cons, List.not_mem_nil, or_false] at ht
    rcases ht with rfl | rfl | rfl | rfl
    · rw [(ciEq_iff_toUpper v _ (by decide)).mp hci]; simp
    · rw [(ciEq_iff_toUpper v _ (by decide)).mp hci]; simp
    · rw [(ciEq_iff_toUpper v _ (by decide)).mp hci]; simp
    · rw [(ciEq_iff_toUpper v _ (by decide)).mp hci]; simp

/-- C8 witness: `yEs` is accepted, `no` is not. -/
theorem claim_C8_witness :
    parse_enabled "yEs" = true ∧ parse_enabled "no" = false := by
  constructor
  · exact (claim_C8_parse_enabled "yEs").mpr ⟨"YES", by simp, by decide⟩
  · decide

/-- C10: every text of at most 40 characters (twice the snippet width of
20), including every non-empty short text, gets the fixed snippet
`[REDACTED]`, which keeps no character of the original. -/
theorem claim_C10_short_snippet (text : String) (h : text.length ≤ 40) :
    auditSnippet text = "[REDACTED]" := by
  unfold auditSnippet createSnippet
  rw [if_pos (Or.inr (by omega))]
  rfl

/-- C10 witness at a concrete seven-character text. -/
theorem claim_C10_witness :
    ("call me" : String).length ≤ 40 ∧ auditSnippet "call me" = "[REDACTED]" :=
  ⟨by decide, claim_C10_short_snippet "call me" (by decide)⟩

/-- C7: when the number of sessions in the `active` state equals the
configured ceiling, `create_session` raises the capacity `ValueError` and
the session and session-info maps are returned unchanged. -/
theorem claim_C7_capacity (Client : Type) (maxc now : Nat) (client : Client)
    (sid : String) (initOk : Bool) (st : SessionManagerState Client)
    (h : activeSessionCount st = maxc) :
    createSession maxc now client sid initOk st =
      (.error ("Maximum concurrent sessions (" ++ toString maxc ++ ") reached"),
       st) := by
  unfold createSession
  rw [if_pos (ge_of_eq h)]

/-- C7 witness: a registry holding exactly one active session at ceiling 1
rejects the next creation and is unchanged. -/
theorem claim_C7_witness :
    activeSessionCount
        (⟨[("s1", ())], [("s1", ⟨"s1", SessionStatus.active, 0, 0⟩)]⟩ :
          SessionManagerState Unit) = 1 ∧
      createSession 1 5 () "s2" true
          ⟨[("s1", ())], [("s1", ⟨"s1", SessionStatus.active, 0, 0⟩)]⟩ =
        (.error "Maximum concurrent sessions (1) reached",
         ⟨[("s1", ())], [("s1", ⟨"s1", SessionStatus.active, 0, 0⟩)]⟩) :=
  ⟨by decide,
   claim_C7_capacity Unit 1 5 () "s2" true
     ⟨[("s1", ())], [("s1", ⟨"s1", SessionStatus.active, 0, 0⟩)]⟩ (by decide)⟩

/-- C9: when the `name` argument trims to fewer than 2 characters (in
particular when it is empty or absent), the HCP lookup handler returns the
fixed `found = false` error result — the same result for every warehouse
oracle and every static-map oracle, so neither store is consulted. -/
theorem claim_C9_short_name
    (fetch_hcp_by_name : String → Except String (Option RedshiftHcp))
    (lookup_hcp_id : String → Option String) (args_name : Option String)
    (h : (pyStrip (args_name.getD "")).length < 2) :
    handleLookupHcpTool fetch_hcp_by_name lookup_hcp_id args_name =
      ⟨false, none, none, none, none,
        some "Name must be at least 2 characters"⟩ := by
  unfold handleLookupHcpTool
  rw [if_pos (Or.inr h)]

/-- C9 witness: with oracles that would both report a hit, the one-letter
name `" a "` still yields the fixed error result. -/
theorem claim_C9_witness :
    (pyStrip ((some " a " : Option String).getD "")).length < 2 ∧
      handleLookupHcpTool (fun _ => .ok (some ⟨"Dr X", "H1", "O1", "Org"⟩))
          (fun _ => some "H9") (some " a ") =
        ⟨false, none, none, none, none,
          some "Name must be at least 2 characters"⟩ :=
  ⟨by decide,
   claim_C9_short_name (fun _ => .ok (some ⟨"Dr X", "H1", "O1", "Org"⟩))
     (fun _ => some "H9") (some " a ") (by decide)⟩

/-- C6: `dispatch_tool_call` is a total function (the embedding returns a
dictionary on every input, mirroring the source's catch-all `try/except`):
an unknown tool name yields the structured unknown-tool error listing the
available tools; a handler that raises yields the structured
`error`/`tool_name` result; a handler that returns yields its result. -/
theorem claim_C6_dispatch_never_raises
    (run : String → ToolDict → Except String ToolDict)
    (tool_name : String) (arguments : ToolDict) :
    (tool_name ∉ availableTools →
      dispatchToolCall run tool_name arguments =
        [("error", .str ("Unknown tool: " ++ tool_name)),
         ("available_tools", .strList availableTools)]) ∧
    (∀ e, tool_name ∈ availableTools → run tool_name arguments = .error e →
      dispatchToolCall run tool_name arguments =
        [("error", .str ("Tool execution failed: " ++ e)),
         ("tool_name", .str tool_name)]) ∧
    (∀ r, tool_name ∈ availableTools → run tool_name arguments = .ok r →
      dispatchToolCall run tool_name arguments = r) := by
  refine ⟨fun h => ?_, fun e hmem hrun => ?_, fun r hmem hrun => ?_⟩
  · unfold dispatchToolCall
    rw [if_neg h]
  · unfold dispatchToolCall
    rw [if_pos hmem, hrun]
  · unfold dispatchToolCall
    rw [if_pos hmem, hrun]

/-- C6 witness: a concrete unknown tool and a concrete raising handler both
produce the structured error dictionaries. -/
theorem claim_C6_witness :
    dispatchToolCall (fun _ _ => .error "boom") "noSuchTool" [] =
        [("error", .str "Unknown tool: noSuchTool"),
         ("available_tools", .strList availableTools)] ∧
      dispatchToolCall (fun _ _ => .error "boom") "lookupHcpTool" [] =
        [("error", .str "Tool execution failed: boom"),
         ("tool_name", .str "lookupHcpTool")] :=
  ⟨(claim_C6_dispatch_never_raises (fun _ _ => .error "boom") "noSuchTool" []).1
      (by decide),
   (claim_C6_dispatch_never_raises (fun _ _ => .error "boom") "lookupHcpTool"
        []).2.1 "boom" (by decide) rfl⟩

/-- C2: the code has no conflict path.  Attaching a second event stream to
a session whose bus already has a subscriber succeeds (distinct subscriber
id, no error — the embedding's result type has no failure alternative,
mirroring `get_events_stream`, which checks nothing), and a subsequently
published event is delivered to both subscribers: delivery is duplicated
rather than rejected with a conflict, contradicting the claimed invariant
(and the expectation of `test_duplicate_fix.py`). -/
theorem claim_C2_second_subscriber_not_rejected :
    (getEventsStream (getEventsStream BusState.empty).2).1 ≠
        (getEventsStream BusState.empty).1 ∧
      deliveredTo
          (busOnNext "evt"
            (getEventsStream (getEventsStream BusState.empty).2).2)
          (getEventsStream BusState.empty).1 = ["evt"] ∧
      deliveredTo
          (busOnNext "evt"
            (getEventsStream (getEventsStream BusState.empty).2).2)
          (getEventsStream (getEventsStream BusState.empty).2).1 = ["evt"] := by
  decide

namespace GuardrailCheckResult

/-- The severity key is zero exactly on severity `block`. -/
theorem severityOrder_eq_zero (s : Option String) :
    severityOrder s = 0 ↔ s = some "block" := by
  cases s with
  | none => simp [severityOrder]
  | some str =>
    by_cases h1 : str = "block"
    · subst h1; simp [severityOrder]
    · constructor
      · intro h0
        by_cases h2 : str = "rewrite"
        · subst h2; simp [severityOrder] at h0
        · by_cases h3 : str = "warn"
          · subst h3; simp [severityOrder] at h0
          · exfalso
            have : severityOrder (some str) = 999 := by
              unfold severityOrder
              split <;> simp_all
            omega
      · intro h
        exact absurd (Option.some_injective _ h) h1

/-- The violation picked by `minBySeverity` has a key no larger than any
element's. -/
theorem minBySeverity_key_le (v : GuardrailViolation)
    (vs : List GuardrailViolation) :
    ∀ x ∈ v :: vs,
      severityOrder (minBySeverity v vs).severity ≤ severityOrder x.severity := by
  induction vs generalizing v with
  | nil =>
    intro x hx
    rcases List.mem_singleton.mp hx with rfl
    exact le_refl _
  | cons w vs ih =>
    intro x hx
    have hfold : minBySeverity v (w :: vs) =
        minBySeverity
          (if severityOrder w.severity < severityOrder v.severity then w else v)
          vs := rfl
    have hpick_v :
        severityOrder (if severityOrder w.severity <
            severityOrder v.severity then w else v).severity ≤
          severityOrder v.severity := by
      by_cases hc : severityOrder w.severity < severityOrder v.severity <;>
        simp [hc]
      omega
    have hpick_w :
        severityOrder (if severityOrder w.severity <
            severityOrder v.severity then w else v).severity ≤
          severityOrder w.severity := by
      by_cases hc : severityOrder w.severity < severityOrder v.severity <;>
        simp [hc]
      omega
    have hhead := ih
      (if severityOrder w.severity < severityOrder v.severity then w else v) _
      (List.mem_cons_self _ _)
    rcases List.mem_cons.mp hx with rfl | hx2
    · rw [hfold]; omega
    · rcases List.mem_cons.mp hx2 with rfl | hx3
      · rw [hfold]; omega
      · rw [hfold]
        exact ih _ x (List.mem_cons_of_mem _ hx3)

end GuardrailCheckResult

/-- A result blocks exactly when some of its violations (all of which are
marked `violated`, as every violation the engine constructs is) has severity
`block`. -/
theorem should_block_iff (r : GuardrailCheckResult)
    (hv : ∀ v ∈ r.violations, v.violated = true) :
    r.should_block = true ↔ ∃ v ∈ r.violations, v.severity = some "block" := by
  unfold GuardrailCheckResult.should_block
  rw [List.any_eq_true]
  constructor
  · rintro ⟨v, hm, hs⟩
    refine ⟨v, hm, ?_⟩
    unfold GuardrailViolation.should_block at hs
    simpa using (Bool.and_eq_true _ _ |>.mp hs).2
  · rintro ⟨v, hm, hs⟩
    exact ⟨v, hm, by simp [GuardrailViolation.should_block, hv v hm, hs]⟩

/-- Some violation rewrites exactly when one carries severity `rewrite`. -/
theorem any_rewrite_iff (r : GuardrailCheckResult)
    (hv : ∀ v ∈ r.violations, v.violated = true) :
    r.violations.any (·.should_rewrite) = true ↔
      ∃ v ∈ r.violations, v.severity = some "rewrite" := by
  rw [List.any_eq_true]
  constructor
  · rintro ⟨v, hm, hs⟩
    refine ⟨v, hm, ?_⟩
    unfold GuardrailViolation.should_rewrite at hs
    simpa using (Bool.and_eq_true _ _ |>.mp hs).2
  · rintro ⟨v, hm, hs⟩
    exact ⟨v, hm, by simp [GuardrailViolation.should_rewrite, hv v hm, hs]⟩

/-- C1: over any check result all of whose violations are marked `violated`
(the engine constructs no others): a `block` violation forces
`should_block` and kills `should_rewrite`; `should_rewrite` holds exactly
when there is no `block` violation but some `rewrite` violation; and when a
`block` violation exists, `highest_severity_violation` returns a violation
of severity `block`. -/
theorem claim_C1_severity_precedence (r : GuardrailCheckResult)
    (hv : ∀ v ∈ r.violations, v.violated = true) :
    ((∃ v ∈ r.violations, v.severity = some "block") →
        r.should_block = true ∧ r.should_rewrite = false) ∧
      (r.should_rewrite = true ↔
        (¬ ∃ v ∈ r.violations, v.severity = some "block") ∧
          ∃ v ∈ r.violations, v.severity = some "rewrite") ∧
      ((∃ v ∈ r.violations, v.severity = some "block") →
        ∃ w, r.highest_severity_violation = some w ∧
          w.severity = some "block") := by
  refine ⟨?_, ?_, ?_⟩
  · intro hex
    have hb : r.should_block = true := (should_block_iff r hv).mpr hex
    refine ⟨hb, ?_⟩
    unfold GuardrailCheckResult.should_rewrite
    rw [if_pos hb]
  · unfold GuardrailCheckResult.should_rewrite
    by_cases hb : r.should_block = true
    · rw [if_pos hb]
      constructor
      · intro h
        simp at h
      · rintro ⟨hnot, _⟩
        exact (hnot ((should_block_iff r hv).mp hb)).elim
    · rw [if_neg hb]
      rw [any_rewrite_iff r hv]
      have : ¬ ∃ v ∈ r.violations, v.severity = some "block" := fun hex =>
        hb ((should_block_iff r hv).mpr hex)
      tauto
  · rintro ⟨w, hw, hws⟩
    rcases hcase : r.violations with _ | ⟨v, vs⟩
    · rw [hcase] at hw
      cases hw
    · refine ⟨GuardrailCheckResult.minBySeverity v vs, ?_, ?_⟩
      · unfold GuardrailCheckResult.highest_severity_violation
        rw [hcase]
      · have hle := GuardrailCheckResult.minBySeverity_key_le v vs w
          (hcase ▸ hw)
        rw [hws] at hle
        have h0 : GuardrailCheckResult.severityOrder
            (GuardrailCheckResult.minBySeverity v vs).severity = 0 := by
          have : GuardrailCheckResult.severityOrder (some "block") = 0 := rfl
          omega
        exact (GuardrailCheckResult.severityOrder_eq_zero _).mp h0

/-- C1 witness: a result holding a `rewrite` violation then a `block`
violation blocks, does not rewrite, and reports a `block` violation as
highest. -/
theorem claim_C1_witness :
    (⟨[⟨true, some "R1", some "CAT", some "rewrite", some "m1", some "d1",
          some "x"⟩,
       ⟨true, some "B1", some "CAT", some "block", some "m2", some "d2",
          some "y"⟩], ["R1", "B1"]⟩ :
        GuardrailCheckResult).should_block = true ∧
      (⟨[⟨true, some "R1", some "CAT", some "rewrite", some "m1", some "d1",
            some "x"⟩,
         ⟨true, some "B1", some "CAT", some "block", some "m2", some "d2",
            some "y"⟩], ["R1", "B1"]⟩ :
          GuardrailCheckResult).should_rewrite = false ∧
      ∃ w, (⟨[⟨true, some "R1", some "CAT", some "rewrite", some "m1",
            some "d1", some "x"⟩,
         ⟨true, some "B1", some "CAT", some "block", some "m2", some "d2",
            some "y"⟩], ["R1", "B1"]⟩ :
          GuardrailCheckResult).highest_severity_violation = some w ∧
        w.severity = some "block" := by
  have h := claim_C1_severity_precedence
    ⟨[⟨true, some "R1", some "CAT", some "rewrite", some "m1", some "d1",
        some "x"⟩,
      ⟨true, some "B1", some "CAT", some "block", some "m2", some "d2",
        some "y"⟩], ["R1", "B1"]⟩ (by decide)
  have hex : ∃ v ∈ (⟨[⟨true, some "R1", some "CAT", some "rewrite", some "m1",
      some "d1", some "x"⟩,
      ⟨true, some "B1", some "CAT", some "block", some "m2", some "d2",
        some "y"⟩], ["R1", "B1"]⟩ :
      GuardrailCheckResult).violations, v.severity = some "block" := by
    refine ⟨⟨true, some "B1", some "CAT", some "block", some "m2", some "d2",
      some "y"⟩, by decide, rfl⟩
  exact ⟨(h.1 hex).1, (h.1 hex).2, h.2.2 hex⟩

/-- C4 counterexample: with allowed locale `en`, the input `ent` is accepted
by the code (`"ent".startswith("en")`), but it is not accepted by the
claim's characterisation — it does not equal `en`, is not a dash-prefixed
extension of `en`, and its base tag `ent` differs from `en`. -/
theorem claim_C4_counterexample :
    isAllowedLocale ["en"] "ent" = true ∧
      specLocaleAccepted ["en"] "ent" = false := by
  decide

/-- C4 amended: the locale is accepted iff, after normalising both sides
(`_`→`-`, lowercase), the input equals some allowed entry, or starts with
some allowed entry (any extension, dash-prefixed or not), or its base tag
(prefix before the first dash) equals some allowed entry's base tag. -/
theorem claim_C4_locale_acceptance (allowed_locales : List String)
    (locale : String) :
    isAllowedLocale allowed_locales locale = true ↔
      ∃ a ∈ allowed_locales,
        normalizeLocale locale = normalizeLocale a ∨
          pyStartsWith (normalizeLocale locale) (normalizeLocale a) = true ∨
          baseTag (normalizeLocale locale) = baseTag (normalizeLocale a) := by
  unfold isAllowedLocale
  simp only [List.any_eq_true, List.mem_map, Bool.or_eq_true, beq_iff_eq]
  constructor
  · rintro ⟨an, ⟨a, ha, rfl⟩, hcond⟩
    exact ⟨a, ha, by tauto⟩
  · rintro ⟨a, ha, hcond⟩
    exact ⟨normalizeLocale a, ⟨a, ha, rfl⟩, by tauto⟩

/-- C3 counterexample: two inputs refuting the claim as stated.  First, the
whitespace-only (hence non-empty) text `" "` with the rejected locale `fr`
produces an empty result instead of a single blocking language violation
(the blank-text short-circuit runs first).  Second, the non-empty text
`hello` with the empty locale string — not accepted by the policy — again
produces no language violation (Python's `if not locale` treats `""` as
absent). -/
theorem claim_C3_counterexample :
    ((check (fun _ _ => none) (fun _ _ => none)
          (some ⟨["en"], "English only"⟩) [] " " (some "fr")).violations = [] ∧
        (" " : String) ≠ "" ∧ isAllowedLocale ["en"] "fr" = false) ∧
      ((check (fun _ _ => none) (fun _ _ => none)
          (some ⟨["en"], "English only"⟩) [] "hello" (some "")).violations
            = [] ∧
        isAllowedLocale ["en"] "" = false) := by
  decide

/-- C3 amended: for every text that is non-empty after stripping whitespace
and every configured language policy, calling `check` with a non-empty
locale string the policy does not accept yields exactly the single language
violation — severity `block`, rule id `LANGUAGE_001`, the policy's fallback
message — and no enabled rule is evaluated (no other violation appears),
whatever the rule set and the two pattern matchers do. -/
theorem claim_C3_language_block_short_circuits
    (matchRegex matchKeyword : String → String → Option String)
    (policy : LanguagePolicy) (rules : List GuardrailRule)
    (text locale : String)
    (htext : pyStrip text ≠ "") (hloc : locale ≠ "")
    (hrej : isAllowedLocale policy.allowed_locales locale = false) :
    (check matchRegex matchKeyword (some policy) rules text
        (some locale)).violations = [languageViolation policy locale] ∧
      (languageViolation policy locale).severity = some "block" ∧
      (languageViolation policy locale).rule_id = some "LANGUAGE_001" ∧
      (languageViolation policy locale).action_message =
        some policy.fallback_message := by
  refine ⟨?_, rfl, rfl, rfl⟩
  unfold check
  rw [if_neg ?hcond]
  case hcond =>
    rintro (h | h)
    · exact htext (by rw [h]; decide)
    · exact htext h
  have hlang : checkLanguage (some policy) (some locale) =
      some (languageViolation policy locale) := by
    show (if locale = "" then none
      else if isAllowedLocale policy.allowed_locales locale then none
      else some (languageViolation policy locale)) =
        some (languageViolation policy locale)
    rw [if_neg hloc, if_neg (by simp [hrej])]
  rw [hlang]
  rfl

/-- C3 amended witness: a concrete rejected locale with a matcher that would
match every rule still yields only the language violation. -/
theorem claim_C3_witness :
    pyStrip "Bonjour tout le monde" ≠ "" ∧ ("fr-FR" : String) ≠ "" ∧
      isAllowedLocale ["en-US", "en"] "fr-FR" = false ∧
      (check (fun _ _ => some "hit") (fun _ _ => some "hit")
          (some ⟨["en-US", "en"], "I can only continue in English."⟩)
          [⟨"AE_001", "AE_DETECTION", "regex", "p", "warn", "m", "d", true⟩]
          "Bonjour tout le monde" (some "fr-FR")).violations =
        [languageViolation ⟨["en-US", "en"], "I can only continue in English."⟩
          "fr-FR"] :=
  ⟨by decide, by decide, by decide,
   (claim_C3_language_block_short_circuits (fun _ _ => some "hit")
      (fun _ _ => some "hit") ⟨["en-US", "en"], "I can only continue in English."⟩
      [⟨"AE_001", "AE_DETECTION", "regex", "p", "warn", "m", "d", true⟩]
      "Bonjour tout le monde" "fr-FR" (by decide) (by decide) (by decide)).1⟩

/-! ## C5 infrastructure, layer 1: matcher-combinator characterisations -/

theorem isSome_orElse (a b : Option Nat) :
    (a <|> b).isSome = (a.isSome || b.isSome) := by
  cases a <;> rfl

theorem orElse_eq_some (a b : Option Nat) (n : Nat) (h : (a <|> b) = some n) :
    a = some n ∨ b = some n := by
  cases a with
  | none => exact Or.inr h
  | some m => exact Or.inl h

theorem mChar_eq_some (p : Char → Bool) (st : MState) (k : MState → Option Nat)
    (n : Nat) (h : mChar p st k = some n) :
    ∃ c r, st.rest = c :: r ∧ p c = true ∧ k ⟨some c, r, st.len + 1⟩ = some n := by
  unfold mChar at h
  split at h
  · next c r heq =>
    split at h
    · next hp => exact ⟨c, r, heq, hp, h⟩
    · cases h
  · cases h

theorem mChar_isSome (p : Char → Bool) (st : MState) (k : MState → Option Nat)
    (c : Char) (r : List Char) (hst : st.rest = c :: r) (hp : p c = true)
    (hk : (k ⟨some c, r, st.len + 1⟩).isSome = true) :
    (mChar p st k).isSome = true := by
  unfold mChar
  split
  · next c2 r2 heq =>
    rw [hst] at heq
    injection heq with h1 h2
    subst h1
    subst h2
    rw [if_pos hp]
    exact hk
  · next heq => rw [hst] at heq; cases heq

theorem mOpt_eq_some (p : Char → Bool) (st : MState) (k : MState → Option Nat)
    (n : Nat) (h : mOpt p st k = some n) :
    (∃ c r, st.rest = c :: r ∧ p c = true ∧
        k ⟨some c, r, st.len + 1⟩ = some n) ∨
      k st = some n := by
  unfold mOpt at h
  rcases orElse_eq_some _ _ _ h with h1 | h1
  · exact Or.inl (mChar_eq_some p st k n h1)
  · exact Or.inr h1

theorem mOpt_isSome_skip (p : Char → Bool) (st : MState)
    (k : MState → Option Nat) (hk : (k st).isSome = true) :
    (mOpt p st k).isSome = true := by
  unfold mOpt
  rw [isSome_orElse, hk, Bool.or_true]

theorem mOpt_isSome_cons (p : Char → Bool) (st : MState)
    (k : MState → Option Nat) (c : Char) (r : List Char)
    (hst : st.rest = c :: r) (hp : p c = true)
    (hk : (k ⟨some c, r, st.len + 1⟩).isSome = true) :
    (mOpt p st k).isSome = true := by
  unfold mOpt
  rw [isSome_orElse, mChar_isSome p st k c r hst hp hk, Bool.true_or]

theorem mExact_eq_some (p : Char → Bool) :
    ∀ (j : Nat) (st : MState) (k : MState → Option Nat) (n : Nat),
      mExact p j st k = some n →
      ∃ w r, st.rest = w ++ r ∧ w.length = j ∧ w.all p = true ∧
        k ⟨if j = 0 then st.prev else w.getLast?, r, st.len + j⟩ = some n := by
  intro j
  induction j with
  | zero =>
    intro st k n h
    exact ⟨[], st.rest, rfl, rfl, rfl, h⟩
  | succ j ih =>
    intro st k n h
    unfold mExact at h
    obtain ⟨c, r, hst, hp, h2⟩ := mChar_eq_some p st _ n h
    obtain ⟨w', r', hrest', hlen', hall', hk⟩ := ih ⟨some c, r, st.len + 1⟩ k n h2
    simp only at hrest' hk
    refine ⟨c :: w', r', by rw [hst, hrest']; rfl, by simp [hlen'],
      by simp [hp, hall'], ?_⟩
    have hprev : (if j + 1 = 0 then st.prev else (c :: w').getLast?) =
        (if j = 0 then some c else w'.getLast?) := by
      cases w' with
      | nil =>
        have hj : j = 0 := by simpa using hlen'.symm
        simp [hj]
      | cons x xs =>
        have hj : j ≠ 0 := by
          simp only [List.length_cons] at hlen'
          omega
        simp [hj, List.getLast?_cons_cons]
    rw [hprev]
    have harith : st.len + 1 + j = st.len + (j + 1) := by omega
    rw [harith] at hk
    exact hk

theorem mExact_isSome (p : Char → Bool) :
    ∀ (j : Nat) (st : MState) (k : MState → Option Nat) (w r : List Char),
      st.rest = w ++ r → w.length = j → w.all p = true →
      ((k ⟨if j = 0 then st.prev else w.getLast?, r, st.len + j⟩).isSome = true) →
      (mExact p j st k).isSome = true := by
  intro j
  induction j with
  | zero =>
    intro st k w r hst hlen _ hk
    have hw : w = [] := List.length_eq_zero.mp hlen
    subst hw
    simp only [List.nil_append] at hst
    unfold mExact
    rw [← hst] at hk
    exact hk
  | succ j ih =>
    intro st k w r hst hlen hall hk
    rcases w with _ | ⟨c, w'⟩
    · cases hlen
    · simp only [List.all_cons, Bool.and_eq_true] at hall
      unfold mExact
      refine mChar_isSome p st _ c (w' ++ r) (by simpa using hst) hall.1 ?_
      refine ih ⟨some c, w' ++ r, st.len + 1⟩ k w' r rfl (by simpa using hlen)
        hall.2 ?_
      have hprev : (if j = 0 then some c else w'.getLast?) =
          (if j + 1 = 0 then st.prev else (c :: w').getLast?) := by
        cases w' with
        | nil =>
          have hj : j = 0 := by
            simp only [List.length_cons, List.length_nil] at hlen
            omega
          simp [hj]
        | cons x xs =>
          have hj : j ≠ 0 := by
            simp only [List.length_cons] at hlen
            omega
          simp [hj, List.getLast?_cons_cons]
      have harith : st.len + 1 + j = st.len + (j + 1) := by omega
      simp only at hk ⊢
      rw [hprev, harith]
      exact hk

theorem runLength_le_length (p : Char → Bool) :
    ∀ l : List Char, runLength p l ≤ l.length := by
  intro l
  induction l with
  | nil => exact le_refl _
  | cons c r ih =>
    unfold runLength
    by_cases hp : p c = true
    · rw [if_pos hp]
      simpa using ih
    · rw [if_neg hp]
      simp

theorem take_of_le_runLength (p : Char → Bool) :
    ∀ (l : List Char) (j : Nat), j ≤ runLength p l →
      (l.take j).length = j ∧ (l.take j).all p = true := by
  intro l
  induction l with
  | nil =>
    intro j hj
    simp only [runLength, Nat.le_zero] at hj
    subst hj
    exact ⟨rfl, rfl⟩
  | cons c r ih =>
    intro j hj
    cases j with
    | zero => exact ⟨rfl, rfl⟩
    | succ j =>
      unfold runLength at hj
      by_cases hp : p c = true
      · rw [if_pos hp] at hj
        obtain ⟨h1, h2⟩ := ih j (by omega)
        exact ⟨by simpa using h1, by simp [hp, h2]⟩
      · rw [if_neg hp] at hj
        omega

theorem le_runLength_of_take (p : Char → Bool) :
    ∀ (l : List Char) (j : Nat), (l.take j).length = j →
      (l.take j).all p = true → j ≤ runLength p l := by
  intro l
  induction l with
  | nil =>
    intro j hlen _
    simp only [List.take_nil, List.length_nil] at hlen
    omega
  | cons c r ih =>
    intro j hlen hall
    cases j with
    | zero => exact Nat.zero_le _
    | succ j =>
      simp only [List.take_succ_cons, List.length_cons, Nat.succ.injEq] at hlen
      simp only [List.take_succ_cons, List.all_cons, Bool.and_eq_true] at hall
      unfold runLength
      rw [if_pos hall.1]
      have := ih j hlen hall.2
      omega

theorem mManyFrom_eq_some (p : Char → Bool) (low : Nat) (st : MState)
    (k : MState → Option Nat) :
    ∀ (J n : Nat), mManyFrom p low st k J = some n →
      ∃ j, j ≤ J ∧ low ≤ j ∧ k (consume st j) = some n := by
  intro J
  induction J with
  | zero =>
    intro n h
    unfold mManyFrom at h
    by_cases hlow : low = 0
    · rw [if_pos hlow] at h
      exact ⟨0, le_refl _, by omega, h⟩
    · rw [if_neg hlow] at h
      cases h
  | succ J ih =>
    intro n h
    unfold mManyFrom at h
    rcases orElse_eq_some _ _ _ h with h1 | h1
    · by_cases hlow : low ≤ J + 1
      · rw [if_pos hlow] at h1
        exact ⟨J + 1, le_refl _, hlow, h1⟩
      · rw [if_neg hlow] at h1
        cases h1
    · obtain ⟨j, hj, hlow, hk⟩ := ih n h1
      exact ⟨j, by omega, hlow, hk⟩

theorem mMany_eq_some (p : Char → Bool) (low : Nat) (st : MState)
    (k : MState → Option Nat) (n : Nat) (h : mMany p low st k = some n) :
    ∃ j, low ≤ j ∧ j ≤ runLength p st.rest ∧ k (consume st j) = some n := by
  unfold mMany at h
  obtain ⟨j, hJ, hlow, hk⟩ := mManyFrom_eq_some p low st k _ n h
  exact ⟨j, hlow, hJ, hk⟩

theorem mManyFrom_isSome (p : Char → Bool) (low : Nat) (st : MState)
    (k : MState → Option Nat) :
    ∀ (J j : Nat), j ≤ J → low ≤ j → (k (consume st j)).isSome = true →
      (mManyFrom p low st k J).isSome = true := by
  intro J
  induction J with
  | zero =>
    intro j hj hlow hk
    have hj0 : j = 0 := by omega
    subst hj0
    unfold mManyFrom
    rw [if_pos (by omega)]
    exact hk
  | succ J ih =>
    intro j hj hlow hk
    unfold mManyFrom
    rw [isSome_orElse]
    by_cases hje : j = J + 1
    · subst hje
      rw [if_pos hlow]
      rw [hk]
      rfl
    · rw [ih j (by omega) hlow hk, Bool.or_true]

theorem mMany_isSome (p : Char → Bool) (low : Nat) (st : MState)
    (k : MState → Option Nat) (j : Nat) (hlow : low ≤ j)
    (hrun : j ≤ runLength p st.rest) (hk : (k (consume st j)).isSome = true) :
    (mMany p low st k).isSome = true :=
  mManyFrom_isSome p low st k _ j hrun hlow hk

theorem mBoundary_eq_some (st : MState) (k : MState → Option Nat) (n : Nat)
    (h : mBoundary st k = some n) :
    (isWordO st.prev != isWordO st.rest.head?) = true ∧ k st = some n := by
  unfold mBoundary at h
  by_cases hb : (isWordO st.prev != isWordO st.rest.head?) = true
  · rw [if_pos hb] at h
    exact ⟨hb, h⟩
  · rw [if_neg hb] at h
    cases h

theorem mBoundary_isSome (st : MState) (k : MState → Option Nat)
    (hb : (isWordO st.prev != isWordO st.rest.head?) = true)
    (hk : (k st).isSome = true) : (mBoundary st k).isSome = true := by
  unfold mBoundary
  rw [if_pos hb]
  exact hk

theorem consume_of_append (st : MState) (w r : List Char)
    (hst : st.rest = w ++ r) :
    consume st w.length =
      ⟨if w.length = 0 then st.prev else w.getLast?, r, st.len + w.length⟩ := by
  unfold consume
  rw [hst]
  refine congrArg₂ (fun a b => MState.mk a b (st.len + w.length)) ?_ ?_
  · by_cases hw : w.length = 0
    · rw [if_pos hw, if_pos hw]
    · rw [if_neg hw, if_neg hw]
      have hlt : w.length - 1 < w.length := by omega
      rw [List.get?_append hlt]
      rw [List.getLast?_eq_get?]
  · exact List.drop_left w r

/-! ## C5 infrastructure, layer 2: generic facts about the scan

A "context-free characterisation" of a matcher `m` is a predicate
`Pre n l` (the pattern matches the first `n` characters of `l`) together
with a character class `cls`, such that `m` succeeds exactly when some
`Pre n` holds (`H1`), `Pre n` depends only on the first `n` characters
(`H2`), every matched character lies in `cls` (`H3`), and matches are
non-empty (`H4`).  The SSN and phone patterns admit such characterisations;
the email and digit-run patterns additionally constrain the surrounding
context and are handled separately. -/

theorem hasMatchFrom_oblivious (m : Option Char → List Char → Option Nat)
    (Pre : Nat → List Char → Prop)
    (H1 : ∀ q l, (m q l).isSome = true ↔ ∃ n, Pre n l) :
    ∀ (l : List Char) (q q' : Option Char),
      hasMatchFrom m q l = hasMatchFrom m q' l := by
  have hiso : ∀ (q q' : Option Char) (l : List Char),
      (m q l).isSome = (m q' l).isSome := by
    intro q q' l
    cases hq : (m q l).isSome with
    | true => exact ((H1 q' l).mpr ((H1 q l).mp hq)).symm
    | false =>
      cases hq' : (m q' l).isSome with
      | true =>
        have hcontra := (H1 q l).mpr ((H1 q' l).mp hq')
        rw [hq] at hcontra
        cases hcontra
      | false => rfl
  intro l q q'
  cases l with
  | nil => simpa [hasMatchFrom] using hiso q q' []
  | cons c r => simp [hasMatchFrom, hiso q q' (c :: r)]

theorem hasMatchFrom_cons_false (m : Option Char → List Char → Option Nat)
    (q : Option Char) (c : Char) (r : List Char) :
    hasMatchFrom m q (c :: r) = false ↔
      (m q (c :: r)).isSome = false ∧ hasMatchFrom m (some c) r = false := by
  simp [hasMatchFrom]

theorem hasMatchFrom_drop (m : Option Char → List Char → Option Nat)
    (Pre : Nat → List Char → Prop)
    (H1 : ∀ q l, (m q l).isSome = true ↔ ∃ n, Pre n l) :
    ∀ (k : Nat) (l : List Char) (q q' : Option Char),
      hasMatchFrom m q l = false → hasMatchFrom m q' (l.drop k) = false := by
  intro k
  induction k with
  | zero =>
    intro l q q' h
    rw [List.drop_zero, hasMatchFrom_oblivious m Pre H1 l q' q]
    exact h
  | succ k ih =>
    intro l q q' h
    cases l with
    | nil =>
      rw [List.drop_nil, hasMatchFrom_oblivious m Pre H1 [] q' q]
      exact h
    | cons c r =>
      rw [List.drop_succ_cons]
      exact ih r (some c) q' ((hasMatchFrom_cons_false m q c r).mp h).2

theorem no_match_nil (m : Option Char → List Char → Option Nat)
    (Pre : Nat → List Char → Prop) (cls : Char → Bool)
    (H1 : ∀ q l, (m q l).isSome = true ↔ ∃ n, Pre n l)
    (H3 : ∀ n l, Pre n l → ∀ i, i < n → ∃ c, l.get? i = some c ∧ cls c = true)
    (H4 : ∀ n l, Pre n l → 1 ≤ n) (q : Option Char) :
    (m q []).isSome = false := by
  by_contra h
  rw [Bool.not_eq_false] at h
  obtain ⟨n, hpre⟩ := (H1 q []).mp h
  obtain ⟨c, hc, _⟩ := H3 n [] hpre 0 (H4 n [] hpre)
  cases hc

theorem hasMatchFrom_skip (m : Option Char → List Char → Option Nat)
    (Pre : Nat → List Char → Prop) (cls : Char → Bool)
    (H1 : ∀ q l, (m q l).isSome = true ↔ ∃ n, Pre n l)
    (H3 : ∀ n l, Pre n l → ∀ i, i < n → ∃ c, l.get? i = some c ∧ cls c = true)
    (H4 : ∀ n l, Pre n l → 1 ≤ n) :
    ∀ (a : List Char) (q : Option Char) (z : List Char),
      (∀ c ∈ a, cls c = false) → hasMatchFrom m none z = false →
      hasMatchFrom m q (a ++ z) = false := by
  intro a
  induction a with
  | nil =>
    intro q z _ hz
    rw [List.nil_append, hasMatchFrom_oblivious m Pre H1 z q none]
    exact hz
  | cons x a ih =>
    intro q z hcls hz
    rw [List.cons_append, hasMatchFrom_cons_false]
    refine ⟨?_, ih (some x) z (fun c hc => hcls c (List.mem_cons_of_mem _ hc)) hz⟩
    by_contra h
    rw [Bool.not_eq_false] at h
    obtain ⟨n, hpre⟩ := (H1 q _).mp h
    obtain ⟨c, hc, hccls⟩ := H3 n _ hpre 0 (H4 n _ hpre)
    simp only [List.get?_cons_zero, Option.some.injEq] at hc
    subst hc
    rw [hcls x (List.mem_cons_self _ _)] at hccls
    cases hccls

/-- First-divergence structure of one `re.sub` pass: up to any cut-off `j`,
the output agrees with the input, or there is a first divergence position
`i < j` before which they agree, at which the output carries the head of the
placeholder and the input admits a pass-pattern match (with the input's own
context character). -/
theorem subAtF_diverge (m₀ : Option Char → List Char → Option Nat)
    (ph₀ : List Char) (hph : ph₀ ≠ []) :
    ∀ (fuel : Nat) (p : Option Char) (l : List Char), l.length ≤ fuel →
      ∀ j : Nat,
        (subAtF m₀ ph₀ fuel p l).take j = l.take j ∨
        ∃ i, i < j ∧ (subAtF m₀ ph₀ fuel p l).take i = l.take i ∧
          (subAtF m₀ ph₀ fuel p l).get? i = ph₀.head? ∧
          ∃ n, m₀ (if i = 0 then p else l.get? (i - 1)) (l.drop i) = some n := by
  intro fuel
  induction fuel with
  | zero =>
    intro p l hl j
    have : l = [] := List.length_eq_zero.mp (Nat.le_zero.mp hl)
    subst this
    left
    simp [subAtF]
  | succ fuel ih =>
    intro p l hl j
    cases l with
    | nil =>
      left
      simp [subAtF]
    | cons c r =>
      rcases hm : m₀ p (c :: r) with _ | n₀
      · have hEq : subAtF m₀ ph₀ (fuel + 1) p (c :: r) =
            c :: subAtF m₀ ph₀ fuel (some c) r := by
          simp [subAtF, hm]
        cases j with
        | zero => left; simp
        | succ j' =>
          have hr : r.length ≤ fuel := by
            simp only [List.length_cons] at hl
            omega
          rcases ih (some c) r hr j' with hleft | ⟨i', hi', heq, hget, n₁, hm1⟩
          · left
            rw [hEq, List.take_succ_cons, List.take_succ_cons, hleft]
          · right
            refine ⟨i' + 1, by omega, ?_, ?_, n₁, ?_⟩
            · rw [hEq, List.take_succ_cons, List.take_succ_cons, heq]
            · rw [hEq, List.get?_cons_succ]
              exact hget
            · have hctx : (if i' + 1 = 0 then p else (c :: r).get? (i' + 1 - 1)) =
                  (if i' = 0 then some c else r.get? (i' - 1)) := by
                cases i' with
                | zero => simp
                | succ i'' => simp
              rw [hctx, List.drop_succ_cons]
              exact hm1
      · have hEq : subAtF m₀ ph₀ (fuel + 1) p (c :: r) =
            ph₀ ++ subAtF m₀ ph₀ fuel ((c :: r).get? (max n₀ 1 - 1))
              ((c :: r).drop (max n₀ 1)) := by
          simp [subAtF, hm]
        cases j with
        | zero => left; simp
        | succ j' =>
          right
          refine ⟨0, by omega, by simp, ?_, n₀, by simpa using hm⟩
          rw [hEq]
          cases ph₀ with
          | nil => exact absurd rfl hph
          | cons x xs => simp

/-- Removing a context-free pattern: after its own `re.sub` pass, no
position of the output admits a match. -/
theorem genRemove (m : Option Char → List Char → Option Nat)
    (Pre : Nat → List Char → Prop) (cls : Char → Bool)
    (H1 : ∀ q l, (m q l).isSome = true ↔ ∃ n, Pre n l)
    (H2 : ∀ n l l₂, Pre n l → List.take n l₂ = List.take n l → Pre n l₂)
    (H3 : ∀ n l, Pre n l → ∀ i, i < n → ∃ c, l.get? i = some c ∧ cls c = true)
    (H4 : ∀ n l, Pre n l → 1 ≤ n)
    (ph : List Char) (hph : ph.head? = some '[')
    (hcls : ∀ c ∈ ph, cls c = false) (hbr : cls '[' = false) :
    ∀ (fuel : Nat) (p : Option Char) (l : List Char) (q : Option Char),
      l.length ≤ fuel → hasMatchFrom m q (subAtF m ph fuel p l) = false := by
  have hphne : ph ≠ [] := by
    intro h
    rw [h] at hph
    cases hph
  intro fuel
  induction fuel with
  | zero =>
    intro p l q hl
    have : l = [] := List.length_eq_zero.mp (Nat.le_zero.mp hl)
    subst this
    simpa [subAtF, hasMatchFrom] using no_match_nil m Pre cls H1 H3 H4 q
  | succ fuel ih =>
    intro p l q hl
    cases l with
    | nil =>
      simpa [subAtF, hasMatchFrom] using no_match_nil m Pre cls H1 H3 H4 q
    | cons c r =>
      have hr : r.length ≤ fuel := by
        simp only [List.length_cons] at hl
        omega
      rcases hm : m p (c :: r) with _ | n₀
      · have hEq : subAtF m ph (fuel + 1) p (c :: r) =
            c :: subAtF m ph fuel (some c) r := by
          simp [subAtF, hm]
        rw [hEq, hasMatchFrom_cons_false]
        refine ⟨?_, ih (some c) r (some c) hr⟩
        by_contra h
        rw [Bool.not_eq_false] at h
        obtain ⟨n, hpre⟩ := (H1 q _).mp h
        have hpre' : Pre n (subAtF m ph (fuel + 1) p (c :: r)) := by
          rw [hEq]; exact hpre
        rcases subAtF_diverge m ph hphne (fuel + 1) p (c :: r) hl n with
          hleft | ⟨i, hin, _, hget, n₁, hm1⟩
        · have : Pre n (c :: r) := H2 n _ _ hpre' hleft.symm
          have := (H1 p (c :: r)).mpr ⟨n, this⟩
          rw [hm] at this
          cases this
        · obtain ⟨ci, hci, hcicls⟩ := H3 n _ hpre' i hin
          rw [hget, hph] at hci
          injection hci with hci
          rw [← hci] at hcicls
          rw [hbr] at hcicls
          cases hcicls
      · have hEq : subAtF m ph (fuel + 1) p (c :: r) =
            ph ++ subAtF m ph fuel ((c :: r).get? (max n₀ 1 - 1))
              ((c :: r).drop (max n₀ 1)) := by
          simp [subAtF, hm]
        rw [hEq]
        refine hasMatchFrom_skip m Pre cls H1 H3 H4 ph q _ hcls ?_
        refine ih _ _ none ?_
        simp only [List.length_drop, List.length_cons]
        omega

/-- Preserving a context-free pattern: a `re.sub` pass for another pattern
cannot create a match of `m` when the input had none, as long as the
placeholder contains no characters of `m`'s class. -/
theorem genPreserve (m : Option Char → List Char → Option Nat)
    (Pre : Nat → List Char → Prop) (cls : Char → Bool)
    (H1 : ∀ q l, (m q l).isSome = true ↔ ∃ n, Pre n l)
    (H2 : ∀ n l l₂, Pre n l → List.take n l₂ = List.take n l → Pre n l₂)
    (H3 : ∀ n l, Pre n l → ∀ i, i < n → ∃ c, l.get? i = some c ∧ cls c = true)
    (H4 : ∀ n l, Pre n l → 1 ≤ n)
    (m₀ : Option Char → List Char → Option Nat)
    (ph₀ : List Char) (hph : ph₀.head? = some '[')
    (hcls : ∀ c ∈ ph₀, cls c = false) (hbr : cls '[' = false) :
    ∀ (fuel : Nat) (p : Option Char) (l : List Char) (q : Option Char),
      l.length ≤ fuel → hasMatchFrom m none l = false →
      hasMatchFrom m q (subAtF m₀ ph₀ fuel p l) = false := by
  have hphne : ph₀ ≠ [] := by
    intro h
    rw [h] at hph
    cases hph
  intro fuel
  induction fuel with
  | zero =>
    intro p l q hl _
    have : l = [] := List.length_eq_zero.mp (Nat.le_zero.mp hl)
    subst this
    simpa [subAtF, hasMatchFrom] using no_match_nil m Pre cls H1 H3 H4 q
  | succ fuel ih =>
    intro p l q hl hnone
    cases l with
    | nil =>
      simpa [subAtF, hasMatchFrom] using no_match_nil m Pre cls H1 H3 H4 q
    | cons c r =>
      have hr : r.length ≤ fuel := by
        simp only [List.length_cons] at hl
        omega
      have hnone' := hnone
      rw [hasMatchFrom_oblivious m Pre H1 (c :: r) none p,
        hasMatchFrom_cons_false] at hnone'
      rcases hm : m₀ p (c :: r) with _ | n₀
      · have hEq : subAtF m₀ ph₀ (fuel + 1) p (c :: r) =
            c :: subAtF m₀ ph₀ fuel (some c) r := by
          simp [subAtF, hm]
        rw [hEq, hasMatchFrom_cons_false]
        refine ⟨?_, ih (some c) r (some c) hr
          (by rw [hasMatchFrom_oblivious m Pre H1 r none (some c)]
              exact hnone'.2)⟩
        by_contra h
        rw [Bool.not_eq_false] at h
        obtain ⟨n, hpre⟩ := (H1 q _).mp h
        have hpre' : Pre n (subAtF m₀ ph₀ (fuel + 1) p (c :: r)) := by
          rw [hEq]; exact hpre
        rcases subAtF_diverge m₀ ph₀ hphne (fuel + 1) p (c :: r) hl n with
          hleft | ⟨i, hin, _, hget, n₁, hm1⟩
        · have : Pre n (c :: r) := H2 n _ _ hpre' hleft.symm
          have := (H1 p (c :: r)).mpr ⟨n, this⟩
          rw [this] at hnone'
          exact absurd hnone'.1 (by simp)
        · obtain ⟨ci, hci, hcicls⟩ := H3 n _ hpre' i hin
          rw [hget, hph] at hci
          injection hci with hci
          rw [← hci] at hcicls
          rw [hbr] at hcicls
          cases hcicls
      · have hEq : subAtF m₀ ph₀ (fuel + 1) p (c :: r) =
            ph₀ ++ subAtF m₀ ph₀ fuel ((c :: r).get? (max n₀ 1 - 1))
              ((c :: r).drop (max n₀ 1)) := by
          simp [subAtF, hm]
        rw [hEq]
        refine hasMatchFrom_skip m Pre cls H1 H3 H4 ph₀ q _ hcls ?_
        refine ih _ _ none ?_ ?_
        · simp only [List.length_drop, List.length_cons]
          omega
        · exact hasMatchFrom_drop m Pre H1 _ _ none none hnone

/-! ## C5 infrastructure, layer 3: characterising the SSN and phone
matchers -/

theorem mOpt_eq_some_run (p : Char → Bool) (st : MState)
    (k : MState → Option Nat) (n : Nat) (h : mOpt p st k = some n) :
    ∃ w r', st.rest = w ++ r' ∧ optOf p w ∧
      k ⟨if w = [] then st.prev else w.getLast?, r', st.len + w.length⟩ =
        some n := by
  rcases mOpt_eq_some p st k n h with ⟨c, r, hst, hp, hk⟩ | hk
  · refine ⟨[c], r, by simpa using hst, Or.inr ⟨c, hp, rfl⟩, ?_⟩
    simpa using hk
  · exact ⟨[], st.rest, rfl, Or.inl rfl, hk⟩

theorem mOpt_isSome_run (p : Char → Bool) (st : MState)
    (k : MState → Option Nat) (w r' : List Char)
    (hst : st.rest = w ++ r') (hw : optOf p w)
    (hk : (k ⟨if w = [] then st.prev else w.getLast?, r', st.len + w.length⟩).isSome
      = true) : (mOpt p st k).isSome = true := by
  rcases hw with rfl | ⟨c, hp, rfl⟩
  · simp only [List.nil_append] at hst
    refine mOpt_isSome_skip p st k ?_
    rw [← hst] at hk
    exact hk
  · exact mOpt_isSome_cons p st k c r' (by simpa using hst) hp hk

theorem get?_of_take_eq (l W : List Char) (n i : Nat) (hW : l.take n = W)
    (hi : i < n) : l.get? i = W.get? i := by
  rw [← hW, List.get?_take hi]

/-- Character class of the SSN pattern. -/
theorem ssnPre_class (n : Nat) (l : List Char) (h : ssnPre n l) :
    ∀ i, i < n → ∃ c, l.get? i = some c ∧ (c.isDigit || c = '-') = true := by
  obtain ⟨hn, w1, w2, w3, h1, h2, h3, htake⟩ := h
  intro i hi
  have hlen : (w1 ++ '-' :: w2 ++ '-' :: w3).length = 11 := by
    simp [h1.1, h2.1, h3.1]
  have hget := get?_of_take_eq l _ n i htake hi
  rcases hWi : (w1 ++ '-' :: w2 ++ '-' :: w3).get? i with _ | c
  · exfalso
    have := List.get?_eq_none.mp hWi
    omega
  · have hmem := List.get?_mem hWi
    refine ⟨c, by rw [hget, hWi], ?_⟩
    have h1' := List.all_eq_true.mp h1.2
    have h2' := List.all_eq_true.mp h2.2
    have h3' := List.all_eq_true.mp h3.2
    simp only [List.mem_append, List.mem_cons] at hmem
    casesm* _ ∨ _ <;> simp_all

theorem ssnAt_eq_some (q : Option Char) (l : List Char) (n : Nat)
    (h : ssnAt q l = some n) : ssnPre n l := by
  unfold ssnAt at h
  obtain ⟨w1, r1, hst1, hlen1, hall1, h⟩ := mExact_eq_some _ 3 ⟨q, l, 0⟩ _ n h
  simp only at hst1 h
  obtain ⟨c2, r2, hst2, hc2, h⟩ := mChar_eq_some _ _ _ n h
  simp only at hst2 h
  obtain ⟨w2, r3, hst3, hlen2, hall2, h⟩ := mExact_eq_some _ 2 _ _ n h
  simp only at hst3 h
  obtain ⟨c4, r4, hst4, hc4, h⟩ := mChar_eq_some _ _ _ n h
  simp only at hst4 h
  obtain ⟨w3, r5, hst5, hlen3, hall3, h⟩ := mExact_eq_some _ 4 _ _ n h
  simp only at hst5 h
  unfold mDone at h
  simp only [Option.some.injEq] at h
  have hc2' : c2 = '-' := by simpa using hc2
  have hc4' : c4 = '-' := by simpa using hc4
  subst hc2' hc4'
  have hn : n = 11 := by omega
  refine ⟨hn, w1, w2, w3, ⟨hlen1, hall1⟩, ⟨hlen2, hall2⟩, ⟨hlen3, hall3⟩, ?_⟩
  have hl : l = (w1 ++ '-' :: w2 ++ '-' :: w3) ++ r5 := by
    rw [hst1, hst2, hst3, hst4, hst5]
    simp
  rw [hl, hn, List.take_left' (by simp [hlen1, hlen2, hlen3])]

theorem ssnAt_isSome (q : Option Char) (l : List Char) (n : Nat)
    (h : ssnPre n l) : (ssnAt q l).isSome = true := by
  obtain ⟨hn, w1, w2, w3, h1, h2, h3, htake⟩ := h
  have hl : l = w1 ++ '-' :: (w2 ++ '-' :: (w3 ++ l.drop n)) := by
    conv_lhs => rw [← List.take_append_drop n l]
    rw [htake]
    simp
  unfold ssnAt
  refine mExact_isSome _ 3 ⟨q, l, 0⟩ _ w1 _ (by simpa using hl) h1.1 h1.2 ?_
  refine mChar_isSome _ _ _ '-' _ rfl (by simp) ?_
  refine mExact_isSome _ 2 _ _ w2 _ rfl h2.1 h2.2 ?_
  refine mChar_isSome _ _ _ '-' _ rfl (by simp) ?_
  refine mExact_isSome _ 4 _ _ w3 _ rfl h3.1 h3.2 ?_
  rfl

theorem ssn_H1 (q : Option Char) (l : List Char) :
    ((ssnAt q l).isSome = true) ↔ ∃ n, ssnPre n l := by
  constructor
  · intro h
    obtain ⟨n, hn⟩ := Option.isSome_iff_exists.mp h
    exact ⟨n, ssnAt_eq_some q l n hn⟩
  · rintro ⟨n, hpre⟩
    exact ssnAt_isSome q l n hpre

theorem ssn_H2 (n : Nat) (l l₂ : List Char) (h : ssnPre n l)
    (ht : List.take n l₂ = List.take n l) : ssnPre n l₂ := by
  obtain ⟨hn, w1, w2, w3, h1, h2, h3, htake⟩ := h
  exact ⟨hn, w1, w2, w3, h1, h2, h3, by rw [ht, htake]⟩

theorem ssn_H4 (n : Nat) (l : List Char) (h : ssnPre n l) : 1 ≤ n := by
  obtain ⟨hn, _⟩ := h
  omega

/-- Character class of the phone pattern. -/
theorem phonePre_class (n : Nat) (l : List Char) (h : phonePre n l) :
    ∀ i, i < n → ∃ c, l.get? i = some c ∧
      (c.isDigit || c = '(' || c = ')' || sepChar c) = true := by
  obtain ⟨p1, d1, p2, s1, d2, s2, d3, hp1, hd1, hp2, hs1, hd2, hs2, hd3, hn,
    htake⟩ := h
  intro i hi
  have hlen : (p1 ++ d1 ++ p2 ++ s1 ++ d2 ++ s2 ++ d3).length = n := by
    simp [hd1.1, hd2.1, hd3.1, hn]
    omega
  have hget := get?_of_take_eq l _ n i htake hi
  rcases hWi : (p1 ++ d1 ++ p2 ++ s1 ++ d2 ++ s2 ++ d3).get? i with _ | c
  · exfalso
    have := List.get?_eq_none.mp hWi
    omega
  · have hmem := List.get?_mem hWi
    refine ⟨c, by rw [hget, hWi], ?_⟩
    have hd1' := List.all_eq_true.mp hd1.2
    have hd2' := List.all_eq_true.mp hd2.2
    have hd3' := List.all_eq_true.mp hd3.2
    rcases hp1 with rfl | ⟨x1, hx1, rfl⟩ <;>
      rcases hp2 with rfl | ⟨x2, hx2, rfl⟩ <;>
      rcases hs1 with rfl | ⟨x3, hx3, rfl⟩ <;>
      rcases hs2 with rfl | ⟨x4, hx4, rfl⟩ <;>
      simp only [List.mem_append, List.mem_cons, List.not_mem_nil, or_false,
        false_or, List.nil_append, List.append_nil] at hmem <;>
      casesm* _ ∨ _ <;> simp_all

theorem phoneAt_eq_some (q : Option Char) (l : List Char) (n : Nat)
    (h : phoneAt q l = some n) : phonePre n l := by
  unfold phoneAt at h
  obtain ⟨p1, r1, hst1, hw1, h⟩ := mOpt_eq_some_run _ ⟨q, l, 0⟩ _ n h
  simp only at hst1 h
  obtain ⟨d1, r2, hst2, hlen1, hall1, h⟩ := mExact_eq_some _ 3 _ _ n h
  simp only at hst2 h
  obtain ⟨p2, r3, hst3, hw2, h⟩ := mOpt_eq_some_run _ _ _ n h
  simp only at hst3 h
  obtain ⟨s1, r4, hst4, hw3, h⟩ := mOpt_eq_some_run _ _ _ n h
  simp only at hst4 h
  obtain ⟨d2, r5, hst5, hlen2, hall2, h⟩ := mExact_eq_some _ 3 _ _ n h
  simp only at hst5 h
  obtain ⟨s2, r6, hst6, hw4, h⟩ := mOpt_eq_some_run _ _ _ n h
  simp only at hst6 h
  obtain ⟨d3, r7, hst7, hlen3, hall3, h⟩ := mExact_eq_some _ 4 _ _ n h
  simp only at hst7 h
  unfold mDone at h
  simp only [Option.some.injEq] at h
  have hn : n = p1.length + 3 + p2.length + s1.length + 3 + s2.length + 4 := by
    omega
  refine ⟨p1, d1, p2, s1, d2, s2, d3, hw1, ⟨hlen1, hall1⟩, hw2, hw3,
    ⟨hlen2, hall2⟩, hw4, ⟨hlen3, hall3⟩, hn, ?_⟩
  have hl : l = (p1 ++ d1 ++ p2 ++ s1 ++ d2 ++ s2 ++ d3) ++ r7 := by
    rw [hst1, hst2, hst3, hst4, hst5, hst6, hst7]
    simp
  rw [hl, hn, List.take_left' (by simp [hlen1, hlen2, hlen3]; omega)]

theorem phoneAt_isSome (q : Option Char) (l : List Char) (n : Nat)
    (h : phonePre n l) : (phoneAt q l).isSome = true := by
  obtain ⟨p1, d1, p2, s1, d2, s2, d3, hp1, hd1, hp2, hs1, hd2, hs2, hd3, hn,
    htake⟩ := h
  have hl : l = p1 ++ (d1 ++ (p2 ++ (s1 ++ (d2 ++ (s2 ++ (d3 ++ l.drop n)))))) := by
    conv_lhs => rw [← List.take_append_drop n l]
    rw [htake]
    simp
  unfold phoneAt
  refine mOpt_isSome_run _ ⟨q, l, 0⟩ _ p1 _ (by simpa using hl) hp1 ?_
  refine mExact_isSome _ 3 _ _ d1 _ rfl hd1.1 hd1.2 ?_
  refine mOpt_isSome_run _ _ _ p2 _ rfl hp2 ?_
  refine mOpt_isSome_run _ _ _ s1 _ rfl hs1 ?_
  refine mExact_isSome _ 3 _ _ d2 _ rfl hd2.1 hd2.2 ?_
  refine mOpt_isSome_run _ _ _ s2 _ rfl hs2 ?_
  refine mExact_isSome _ 4 _ _ d3 _ rfl hd3.1 hd3.2 ?_
  rfl

theorem phone_H1 (q : Option Char) (l : List Char) :
    ((phoneAt q l).isSome = true) ↔ ∃ n, phonePre n l := by
  constructor
  · intro h
    obtain ⟨n, hn⟩ := Option.isSome_iff_exists.mp h
    exact ⟨n, phoneAt_eq_some q l n hn⟩
  · rintro ⟨n, hpre⟩
    exact phoneAt_isSome q l n hpre

theorem phone_H2 (n : Nat) (l l₂ : List Char) (h : phonePre n l)
    (ht : List.take n l₂ = List.take n l) : phonePre n l₂ := by
  obtain ⟨p1, d1, p2, s1, d2, s2, d3, hp1, hd1, hp2, hs1, hd2, hs2, hd3, hn,
    htake⟩ := h
  exact ⟨p1, d1, p2, s1, d2, s2, d3, hp1, hd1, hp2, hs1, hd2, hs2, hd3, hn,
    by rw [ht, htake]⟩

theorem phone_H4 (n : Nat) (l : List Char) (h : phonePre n l) : 1 ≤ n := by
  obtain ⟨p1, d1, p2, s1, d2, s2, d3, _, _, _, _, _, _, _, hn, _⟩ := h
  omega

/-! ## C5 infrastructure, layer 4: characterising the digit-run and email
matchers (context-sensitive: both carry `\b` conditions) -/

theorem head?_drop (l : List Char) (n : Nat) : (l.drop n).head? = l.get? n := by
  rw [← List.get?_zero, List.get?_drop]
  rfl

theorem idAt_eq_some (q : Option Char) (l : List Char) (n : Nat)
    (h : idAt q l = some n) :
    idPre n l ∧ (isWordO q != isWordO l.head?) = true ∧
      (isWordO (l.get? (n - 1)) != isWordO (l.get? n)) = true := by
  unfold idAt at h
  obtain ⟨hb1, h⟩ := mBoundary_eq_some _ _ n h
  simp only at hb1 h
  obtain ⟨j, h6, hrun, h⟩ := mMany_eq_some _ _ _ _ n h
  simp only at hrun h
  obtain ⟨hb2, h⟩ := mBoundary_eq_some _ _ n h
  unfold mDone at h
  simp only [consume, Option.some.injEq] at hb2 h
  have hn : n = j := by omega
  subst hn
  have hj0 : ¬ n = 0 := by omega
  rw [if_neg hj0] at hb2
  obtain ⟨hlen, hall⟩ := take_of_le_runLength Char.isDigit l n hrun
  refine ⟨⟨h6, hlen, hall⟩, hb1, ?_⟩
  rw [head?_drop] at hb2
  exact hb2

theorem idAt_isSome (q : Option Char) (l : List Char) (n : Nat)
    (hpre : idPre n l) (hb1 : (isWordO q != isWordO l.head?) = true)
    (hb2 : (isWordO (l.get? (n - 1)) != isWordO (l.get? n)) = true) :
    (idAt q l).isSome = true := by
  obtain ⟨h6, hlen, hall⟩ := hpre
  unfold idAt
  refine mBoundary_isSome _ _ hb1 ?_
  refine mMany_isSome _ 6 _ _ n h6 (le_runLength_of_take _ l n hlen hall) ?_
  refine mBoundary_isSome _ _ ?_ rfl
  simp only [consume, if_neg (by omega : ¬ n = 0)]
  rw [head?_drop]
  exact hb2

/-- A digit-run match always starts with a digit. -/
theorem id_first (q : Option Char) (c : Char) (r : List Char)
    (h : (idAt q (c :: r)).isSome = true) : c.isDigit = true := by
  obtain ⟨n, hn⟩ := Option.isSome_iff_exists.mp h
  obtain ⟨⟨h6, hlen, hall⟩, _, _⟩ := idAt_eq_some q (c :: r) n hn
  have : c ∈ (c :: r).take n := by
    cases n with
    | zero => omega
    | succ n => simp [List.take_succ_cons]
  exact List.all_eq_true.mp hall c this

theorem emailAt_eq_some (q : Option Char) (l : List Char) (n : Nat)
    (h : emailAt q l = some n) :
    emailPre n l ∧ (isWordO q != isWordO l.head?) = true ∧
      (isWordO (l.get? (n - 1)) != isWordO (l.get? n)) = true := by
  unfold emailAt at h
  obtain ⟨hb1, h⟩ := mBoundary_eq_some _ _ n h
  simp only at hb1 h
  obtain ⟨j1, hj1, hrun1, h⟩ := mMany_eq_some _ _ _ _ n h
  simp only [consume] at hrun1 h
  obtain ⟨ca, r2, hsta, hca, h⟩ := mChar_eq_some _ _ _ n h
  simp only at hsta h
  obtain ⟨j2, hj2, hrun2, h⟩ := mMany_eq_some _ _ _ _ n h
  simp only [consume] at hrun2 h
  obtain ⟨cd, r3, hstd, hcd, h⟩ := mChar_eq_some _ _ _ n h
  simp only at hstd h
  obtain ⟨j3, hj3, hrun3, h⟩ := mMany_eq_some _ _ _ _ n h
  simp only [consume] at hrun3 h
  obtain ⟨hb2, h⟩ := mBoundary_eq_some _ _ n h
  unfold mDone at h
  simp only [consume, Option.some.injEq] at hb2 h
  have hca' : ca = '@' := by simpa using hca
  have hcd' : cd = '.' := by simpa using hcd
  subst hca' hcd'
  have hn : n = j1 + 1 + j2 + 1 + j3 := by omega
  obtain ⟨hlen1, hall1⟩ := take_of_le_runLength localChar l j1 hrun1
  obtain ⟨hlen2, hall2⟩ := take_of_le_runLength domainChar r2 j2 hrun2
  obtain ⟨hlen3, hall3⟩ := take_of_le_runLength tldChar r3 j3 hrun3
  have hldec : l = l.take j1 ++ '@' :: r2 := by
    conv_lhs => rw [← List.take_append_drop j1 l]
    rw [hsta]
  have hr2dec : r2 = r2.take j2 ++ '.' :: r3 := by
    conv_lhs => rw [← List.take_append_drop j2 r2]
    rw [hstd]
  have hr3dec : r3 = r3.take j3 ++ r3.drop j3 := (List.take_append_drop j3 r3).symm
  have hW : l = (l.take j1 ++ '@' :: (r2.take j2 ++ '.' :: r3.take j3)) ++
      r3.drop j3 := by
    conv_lhs => rw [hldec]
    conv_lhs => rw [hr2dec]
    conv_lhs => rw [hr3dec]
    simp
  have hWlen : (l.take j1 ++ '@' :: (r2.take j2 ++ '.' :: r3.take j3)).length
      = n := by
    simp [hlen1, hlen2, hlen3, hn]
    omega
  refine ⟨⟨l.take j1, r2.take j2, r3.take j3, by omega, hall1, by omega, hall2,
    by omega, hall3, by rw [hlen1, hlen2, hlen3]; omega, ?_⟩, hb1, ?_⟩
  · conv_lhs => rw [hW]
    rw [List.take_left' hWlen]
    simp
  · have hP : l = (l.take j1 ++ '@' :: r2.take j2 ++ ['.']) ++ r3 := by
      conv_lhs => rw [hldec]
      conv_lhs => rw [hr2dec]
      simp
    have hPlen : (l.take j1 ++ '@' :: r2.take j2 ++ ['.']).length =
        j1 + 1 + j2 + 1 := by
      simp [hlen1, hlen2]
      omega
    have hg1 : l.get? (n - 1) = r3.get? (j3 - 1) := by
      conv_lhs => rw [hP]
      rw [List.get?_append_right (by omega)]
      congr 1
      omega
    have hg2 : l.get? n = r3.get? j3 := by
      conv_lhs => rw [hP]
      rw [List.get?_append_right (by omega)]
      congr 1
      omega
    rw [hg1, hg2]
    have hj30 : ¬ j3 = 0 := by omega
    rw [if_neg hj30] at hb2
    rw [head?_drop] at hb2
    exact hb2

theorem emailAt_isSome (q : Option Char) (l : List Char) (n : Nat)
    (hpre : emailPre n l) (hb1 : (isWordO q != isWordO l.head?) = true)
    (hb2 : (isWordO (l.get? (n - 1)) != isWordO (l.get? n)) = true) :
    (emailAt q l).isSome = true := by
  obtain ⟨w1, w2, w3, hw1, hall1, hw2, hall2, hw3, hall3, hn, htake⟩ := hpre
  have hl2 : l = w1 ++ '@' :: (w2 ++ '.' :: (w3 ++ l.drop n)) := by
    conv_lhs => rw [← List.take_append_drop n l]
    rw [htake]
    simp
  have htake1 : l.take w1.length = w1 := by
    conv_lhs => rw [hl2]
    exact List.take_left _ _
  have hw1run : w1.length ≤ runLength localChar l :=
    le_runLength_of_take _ l w1.length (by rw [htake1])
      (by rw [htake1]; exact hall1)
  have hdrop1 : l.drop w1.length = '@' :: (w2 ++ '.' :: (w3 ++ l.drop n)) := by
    conv_lhs => rw [hl2]
    exact List.drop_left _ _
  unfold emailAt
  refine mBoundary_isSome _ _ hb1 ?_
  refine mMany_isSome _ 1 _ _ w1.length hw1 hw1run ?_
  simp only [consume]
  refine mChar_isSome _ _ _ '@' _ hdrop1 (by simp) ?_
  have htake2 : (w2 ++ '.' :: (w3 ++ l.drop n)).take w2.length = w2 :=
    List.take_left _ _
  have hw2run : w2.length ≤ runLength domainChar (w2 ++ '.' :: (w3 ++ l.drop n)) :=
    le_runLength_of_take _ _ w2.length (by rw [htake2])
      (by rw [htake2]; exact hall2)
  refine mMany_isSome _ 1 _ _ w2.length hw2 hw2run ?_
  simp only [consume]
  have hdrop2 : (w2 ++ '.' :: (w3 ++ l.drop n)).drop w2.length =
      '.' :: (w3 ++ l.drop n) := List.drop_left _ _
  refine mChar_isSome _ _ _ '.' _ hdrop2 (by simp) ?_
  have htake3 : (w3 ++ l.drop n).take w3.length = w3 := List.take_left _ _
  have hw3run : w3.length ≤ runLength tldChar (w3 ++ l.drop n) :=
    le_runLength_of_take _ _ w3.length (by rw [htake3])
      (by rw [htake3]; exact hall3)
  refine mMany_isSome _ 2 _ _ w3.length hw3 hw3run ?_
  refine mBoundary_isSome _ _ ?_ rfl
  simp only [consume, if_neg (by omega : ¬ w3.length = 0)]
  have hP : l = (w1 ++ '@' :: w2 ++ ['.']) ++ (w3 ++ l.drop n) := by
    conv_lhs => rw [hl2]
    simp
  have hPlen : (w1 ++ '@' :: w2 ++ ['.']).length = w1.length + w2.length + 2 := by
    simp
    omega
  have hg1 : l.get? (n - 1) = (w3 ++ l.drop n).get? (w3.length - 1) := by
    conv_lhs => rw [hP]
    rw [List.get?_append_right (by omega)]
    congr 1
    omega
  have hg2 : l.get? n = (w3 ++ l.drop n).get? w3.length := by
    conv_lhs => rw [hP]
    rw [List.get?_append_right (by omega)]
    congr 1
    omega
  rw [head?_drop, ← hg2]
  rw [show (w3 ++ l.drop n).get? (w3.length - 1) = l.get? (n - 1) from hg1.symm]
  exact hb2

theorem get?_eq_of_take_eq (l₁ l₂ : List Char) (j i : Nat)
    (h : l₁.take j = l₂.take j) (hi : i < j) : l₁.get? i = l₂.get? i := by
  rw [← List.get?_take hi, h, List.get?_take hi]

theorem digit_word (c : Char) (h : c.isDigit = true) : wordChar c = true := by
  simp [wordChar, Char.isAlphanum, h]

theorem email_H2 (n : Nat) (l l₂ : List Char) (h : emailPre n l)
    (ht : List.take n l₂ = List.take n l) : emailPre n l₂ := by
  obtain ⟨w1, w2, w3, hw1, hall1, hw2, hall2, hw3, hall3, hn, htake⟩ := h
  exact ⟨w1, w2, w3, hw1, hall1, hw2, hall2, hw3, hall3, hn, by rw [ht, htake]⟩

theorem email_H4 (n : Nat) (l : List Char) (h : emailPre n l) : 6 ≤ n := by
  obtain ⟨w1, w2, w3, hw1, _, hw2, _, hw3, _, hn, _⟩ := h
  omega

theorem email_class (n : Nat) (l : List Char) (h : emailPre n l) :
    ∀ i, i < n → ∃ c, l.get? i = some c ∧
      (localChar c || c = '@' || domainChar c || c = '.' || tldChar c) = true := by
  obtain ⟨w1, w2, w3, hw1, hall1, hw2, hall2, hw3, hall3, hn, htake⟩ := h
  intro i hi
  have hlen : (w1 ++ '@' :: w2 ++ '.' :: w3).length = n := by
    simp
    omega
  have hget := get?_of_take_eq l _ n i htake hi
  rcases hWi : (w1 ++ '@' :: w2 ++ '.' :: w3).get? i with _ | c
  · exfalso
    have := List.get?_eq_none.mp hWi
    omega
  · have hmem := List.get?_mem hWi
    refine ⟨c, by rw [hget, hWi], ?_⟩
    have h1' := List.all_eq_true.mp hall1
    have h2' := List.all_eq_true.mp hall2
    have h3' := List.all_eq_true.mp hall3
    simp only [List.mem_append, List.mem_cons] at hmem
    casesm* _ ∨ _ <;> simp_all

theorem email_nil (q : Option Char) : (emailAt q []).isSome = false := by
  by_contra h
  rw [Bool.not_eq_false] at h
  obtain ⟨n, hn⟩ := Option.isSome_iff_exists.mp h
  obtain ⟨hpre, _, _⟩ := emailAt_eq_some q [] n hn
  obtain ⟨c, hc, _⟩ := email_class n [] hpre 0 (by have := email_H4 n [] hpre; omega)
  cases hc

theorem id_H2 (n : Nat) (l l₂ : List Char) (h : idPre n l)
    (ht : List.take n l₂ = List.take n l) : idPre n l₂ := by
  obtain ⟨h6, hlen, hall⟩ := h
  exact ⟨h6, by rw [ht]; exact hlen, by rw [ht]; exact hall⟩

theorem id_class (n : Nat) (l : List Char) (h : idPre n l) :
    ∀ i, i < n → ∃ c, l.get? i = some c ∧ c.isDigit = true := by
  obtain ⟨h6, hlen, hall⟩ := h
  intro i hi
  rcases hWi : (l.take n).get? i with _ | c
  · exfalso
    have := List.get?_eq_none.mp hWi
    omega
  · have hmem := List.get?_mem hWi
    refine ⟨c, ?_, List.all_eq_true.mp hall c hmem⟩
    rw [← List.get?_take hi, hWi]

theorem id_nil (q : Option Char) : (idAt q []).isSome = false := by
  by_contra h
  rw [Bool.not_eq_false] at h
  obtain ⟨n, hn⟩ := Option.isSome_iff_exists.mp h
  obtain ⟨⟨h6, hlen, _⟩, _, _⟩ := idAt_eq_some q [] n hn
  simp at hlen
  omega

/-- Dropping a prefix of a match-free list, keeping the true context
character, keeps it match-free. -/
theorem hasMatchFrom_false_drop_ctx (m : Option Char → List Char → Option Nat)
    (hnil : ∀ q, (m q []).isSome = false) :
    ∀ (k : Nat) (l : List Char) (q : Option Char),
      hasMatchFrom m q l = false →
      hasMatchFrom m (if k = 0 then q else l.get? (k - 1)) (l.drop k) = false := by
  intro k
  induction k with
  | zero =>
    intro l q h
    simpa using h
  | succ k ih =>
    intro l q h
    cases l with
    | nil =>
      simp [hasMatchFrom, hnil]
    | cons c r =>
      have htail := ((hasMatchFrom_cons_false m q c r).mp h).2
      have := ih r (some c) htail
      have hctx : (if k + 1 = 0 then q else (c :: r).get? (k + 1 - 1)) =
          (if k = 0 then some c else r.get? (k - 1)) := by
        cases k with
        | zero => simp
        | succ k' => simp
      rw [hctx, List.drop_succ_cons]
      exact this

/-- Skipping a placeholder whose characters cannot start a match, keeping
the context character. -/
theorem hasMatchFrom_skip_first (m : Option Char → List Char → Option Nat)
    (firstOk : Char → Bool)
    (hfirst : ∀ q c rest, (m q (c :: rest)).isSome = true → firstOk c = true) :
    ∀ (a : List Char) (q : Option Char) (z : List Char),
      (∀ c ∈ a, firstOk c = false) →
      hasMatchFrom m (if a = [] then q else a.getLast?) z = false →
      hasMatchFrom m q (a ++ z) = false := by
  intro a
  induction a with
  | nil =>
    intro q z _ hz
    simpa using hz
  | cons x a ih =>
    intro q z hcls hz
    rw [List.cons_append, hasMatchFrom_cons_false]
    constructor
    · by_contra h
      rw [Bool.not_eq_false] at h
      have := hfirst q x _ h
      rw [hcls x (List.mem_cons_self _ _)] at this
      cases this
    · refine ih (some x) z (fun c hc => hcls c (List.mem_cons_of_mem _ hc)) ?_
      have hlast : (if a = [] then some x else a.getLast?) =
          (x :: a).getLast? := by
        cases a with
        | nil => simp
        | cons y a' => simp [List.getLast?_cons_cons]
      rw [hlast]
      cases ha : (x :: a) with
      | nil => cases ha
      | cons _ _ =>
        rw [← ha]
        rw [if_neg (by simp)] at hz
        exact hz

theorem email_fails_at_nonlocal (q : Option Char) (c : Char) (rest : List Char)
    (hc : localChar c = false) : (emailAt q (c :: rest)).isSome = false := by
  by_contra h
  rw [Bool.not_eq_false] at h
  obtain ⟨n, hn⟩ := Option.isSome_iff_exists.mp h
  obtain ⟨hpre, _, _⟩ := emailAt_eq_some q _ n hn
  obtain ⟨w1, w2, w3, hw1, hall1, _, _, _, _, hnn, htake⟩ := hpre
  have h0 : (c :: rest).get? 0 = some c := rfl
  have hg := get?_of_take_eq (c :: rest) _ n 0 htake (by omega)
  rw [h0] at hg
  rcases w1 with _ | ⟨w, ws⟩
  · simp at hw1
  · simp only [List.cons_append, List.get?_cons_zero, Option.some.injEq] at hg
    subst hg
    have : localChar c = true :=
      List.all_eq_true.mp hall1 c (List.mem_cons_self _ _)
    rw [hc] at this
    cases this

theorem email_fails_word_word (q : Option Char) (c : Char) (rest : List Char)
    (hq : isWordO q = true) (hc : wordChar c = true) :
    (emailAt q (c :: rest)).isSome = false := by
  by_contra h
  rw [Bool.not_eq_false] at h
  obtain ⟨n, hn⟩ := Option.isSome_iff_exists.mp h
  obtain ⟨_, hb1, _⟩ := emailAt_eq_some q _ n hn
  rw [hq] at hb1
  simp only [List.head?_cons] at hb1
  rw [show isWordO (some c) = wordChar c from rfl, hc] at hb1
  simp at hb1

theorem emailPre_facts (n : Nat) (l : List Char) (h : emailPre n l) :
    ∃ k, 1 ≤ k ∧ k + 1 < n ∧
      (∀ i, i < k → ∃ c, l.get? i = some c ∧ localChar c = true) ∧
      l.get? k = some '@' := by
  obtain ⟨w1, w2, w3, hw1, hall1, hw2, hall2, hw3, hall3, hn, htake⟩ := h
  refine ⟨w1.length, hw1, by omega, ?_, ?_⟩
  · intro i hi
    have hg := get?_of_take_eq l _ n i htake (by omega)
    rcases hWi : w1.get? i with _ | c
    · exfalso
      have := List.get?_eq_none.mp hWi
      omega
    · refine ⟨c, ?_, List.all_eq_true.mp hall1 c (List.get?_mem hWi)⟩
      rw [hg,
        List.get?_append (show i < (w1 ++ '@' :: w2).length by simp only [List.length_append, List.length_cons]; omega),
        List.get?_append hi, hWi]
  · have hg := get?_of_take_eq l _ n w1.length htake (by omega)
    rw [hg,
      List.get?_append
        (show w1.length < (w1 ++ '@' :: w2).length by simp only [List.length_append, List.length_cons]; omega),
      List.get?_append_right (le_refl _)]
    simp

theorem email_fails_letters_bracket (q : Option Char) (ws : List Char)
    (z : List Char) (hws : ws.all Char.isAlpha = true) :
    (emailAt q (ws ++ ']' :: z)).isSome = false := by
  by_contra h
  rw [Bool.not_eq_false] at h
  obtain ⟨n, hn⟩ := Option.isSome_iff_exists.mp h
  obtain ⟨hpre, _, _⟩ := emailAt_eq_some q _ n hn
  obtain ⟨k, hk1, hkn, hloc, hat⟩ := emailPre_facts n _ hpre
  rcases Nat.lt_trichotomy k ws.length with hlt | heq | hgt
  · rw [List.get?_append hlt] at hat
    have hmem := List.get?_mem hat
    have := List.all_eq_true.mp hws _ hmem
    simp at this
  · rw [List.get?_append_right (by omega)] at hat
    rw [heq] at hat
    simp at hat
  · obtain ⟨c, hc, hcl⟩ := hloc ws.length hgt
    rw [List.get?_append_right (le_refl _)] at hc
    simp only [Nat.sub_self, List.get?_cons_zero, Option.some.injEq] at hc
    subst hc
    simp [localChar] at hcl

theorem email_skip_letters (ws : List Char) :
    ∀ (q : Option Char) (z : List Char), ws.all Char.isAlpha = true →
      isWordO q = true → hasMatchFrom emailAt (some ']') z = false →
      hasMatchFrom emailAt q (ws ++ ']' :: z) = false := by
  induction ws with
  | nil =>
    intro q z _ _ hz
    rw [List.nil_append, hasMatchFrom_cons_false]
    exact ⟨email_fails_at_nonlocal q ']' z (by decide), hz⟩
  | cons w ws ih =>
    intro q z hws hq hz
    rw [List.cons_append, hasMatchFrom_cons_false]
    simp only [List.all_cons, Bool.and_eq_true] at hws
    refine ⟨email_fails_word_word q w _ hq ?_, ?_⟩
    · simp [wordChar, Char.isAlphanum, hws.1]
    · exact ih (some w) z hws.2
        (by simp [isWordO, wordChar, Char.isAlphanum, hws.1]) hz

/-- No email match can start inside a placeholder of shape
`[` letters `]`, and scanning past it keeps the `]` context. -/
theorem hasMatchFrom_email_placeholder (ws : List Char) (hne : ws ≠ [])
    (hws : ws.all Char.isAlpha = true) (q : Option Char) (z : List Char)
    (hz : hasMatchFrom emailAt (some ']') z = false) :
    hasMatchFrom emailAt q ('[' :: (ws ++ ']' :: z)) = false := by
  rw [hasMatchFrom_cons_false]
  refine ⟨email_fails_at_nonlocal q '[' _ (by decide), ?_⟩
  cases ws with
  | nil => exact absurd rfl hne
  | cons w ws' =>
    rw [List.cons_append, hasMatchFrom_cons_false]
    refine ⟨email_fails_letters_bracket (some '[') (w :: ws') z hws, ?_⟩
    simp only [List.all_cons, Bool.and_eq_true] at hws
    exact email_skip_letters ws' (some w) z hws.2
      (by simp [isWordO, wordChar, Char.isAlphanum, hws.1]) hz

/-! ## C5 infrastructure, layer 5: the context-sensitive passes -/

/-- After the digit-run pass, no position of the output admits a digit-run
match.  The context invariant: the output-side context `q` classifies (as
word or non-word) like the input-side context `p`, or both `q` and the
input head are non-word (the state right after a replaced span). -/
theorem idRemove (ph : List Char) (hh : ph.head? = some '[')
    (hnd : ∀ c ∈ ph, c.isDigit = false) (hlast : ph.getLast? = some ']') :
    ∀ (fuel : Nat) (p : Option Char) (l : List Char) (q : Option Char),
      l.length ≤ fuel →
      (isWordO q = isWordO p ∨
        (isWordO q = false ∧ isWordO l.head? = false)) →
      hasMatchFrom idAt q (subAtF idAt ph fuel p l) = false := by
  have hphne : ph ≠ [] := by
    intro hcon
    rw [hcon] at hh
    cases hh
  intro fuel
  induction fuel with
  | zero =>
    intro p l q hl _
    have : l = [] := List.length_eq_zero.mp (Nat.le_zero.mp hl)
    subst this
    simpa [subAtF, hasMatchFrom] using id_nil q
  | succ fuel ih =>
    intro p l q hl hinv
    cases l with
    | nil => simpa [subAtF, hasMatchFrom] using id_nil q
    | cons c r =>
      have hr : r.length ≤ fuel := by
        simp only [List.length_cons] at hl
        omega
      rcases hm : idAt p (c :: r) with _ | n₀
      · have hEq : subAtF idAt ph (fuel + 1) p (c :: r) =
            c :: subAtF idAt ph fuel (some c) r := by
          simp [subAtF, hm]
        rw [hEq, hasMatchFrom_cons_false]
        refine ⟨?_, ih (some c) r (some c) hr (Or.inl rfl)⟩
        by_contra h
        rw [Bool.not_eq_false] at h
        rcases hinv with hqp | ⟨hq, hhead⟩
        · obtain ⟨n, hn⟩ := Option.isSome_iff_exists.mp h
          obtain ⟨hpre, hbl, hbt⟩ := idAt_eq_some q _ n hn
          have h6 : 6 ≤ n := hpre.1
          have hpre' : idPre n (subAtF idAt ph (fuel + 1) p (c :: r)) := by
            rw [hEq]; exact hpre
          have hbl' : (isWordO q !=
              isWordO (subAtF idAt ph (fuel + 1) p (c :: r)).head?) = true := by
            rw [hEq]; exact hbl
          have hbt' : (isWordO
                ((subAtF idAt ph (fuel + 1) p (c :: r)).get? (n - 1)) !=
              isWordO ((subAtF idAt ph (fuel + 1) p (c :: r)).get? n)) =
                true := by
            rw [hEq]; exact hbt
          rcases subAtF_diverge idAt ph hphne (fuel + 1) p (c :: r) hl (n + 1)
            with hleft | ⟨i, hin, htakei, hget, n₁, hm1⟩
          · have htaken : (subAtF idAt ph (fuel + 1) p (c :: r)).take n =
                (c :: r).take n := by
              have hcast := congrArg (List.take n) hleft
              rw [List.take_take, List.take_take,
                min_eq_left (by omega)] at hcast
              exact hcast
            have hpreIn : idPre n (c :: r) := id_H2 n _ _ hpre' htaken.symm
            have hg1 := get?_eq_of_take_eq _ _ (n + 1) (n - 1) hleft (by omega)
            have hg2 := get?_eq_of_take_eq _ _ (n + 1) n hleft (by omega)
            have hblIn : (isWordO p != isWordO ((c :: r) : List Char).head?) =
                true := by
              rw [← hqp]
              rw [hEq] at hbl'
              exact hbl'
            have hbtIn : (isWordO (((c :: r) : List Char).get? (n - 1)) !=
                isWordO (((c :: r) : List Char).get? n)) = true := by
              rw [← hg1, ← hg2, hEq]
              rw [hEq] at hbt'
              exact hbt'
            have hcontra := idAt_isSome p (c :: r) n hpreIn hblIn hbtIn
            rw [hm] at hcontra
            cases hcontra
          · rcases Nat.lt_or_ge i n with hilt | hige
            · obtain ⟨ci, hci, hdigci⟩ := id_class n _ hpre' i hilt
              rw [hget, hh] at hci
              injection hci with hci
              rw [← hci] at hdigci
              cases hdigci
            · have hieq : i = n := by omega
              subst hieq
              have hctxne : ¬ i = 0 := by omega
              rw [if_neg hctxne] at hm1
              obtain ⟨hpre1, hbl1, _⟩ := idAt_eq_some _ _ n₁ hm1
              obtain ⟨cd, hcd, hddig⟩ := id_class n₁ _ hpre1 0 (by
                have := hpre1.1
                omega)
              rw [List.get?_zero, head?_drop] at hcd
              obtain ⟨cx, hcx, hxdig⟩ := id_class i _ hpre' (i - 1) (by omega)
              have hcx2 : (c :: r).get? (i - 1) = some cx := by
                rw [← get?_eq_of_take_eq _ _ i (i - 1) htakei (by omega), hcx]
              rw [head?_drop, hcd, hcx2] at hbl1
              have hw1 : isWordO (some cx) = true := digit_word cx hxdig
              have hw2 : isWordO (some cd) = true := digit_word cd hddig
              rw [hw1, hw2] at hbl1
              cases hbl1
        · have hdig := id_first q c _ h
          have : isWordO ((c :: r) : List Char).head? = true := by
            simp only [List.head?_cons]
            exact digit_word c hdig
          rw [hhead] at this
          cases this
      · have hEq : subAtF idAt ph (fuel + 1) p (c :: r) =
            ph ++ subAtF idAt ph fuel ((c :: r).get? (max n₀ 1 - 1))
              ((c :: r).drop (max n₀ 1)) := by
          simp [subAtF, hm]
        obtain ⟨hpre0, hbl0, hbt0⟩ := idAt_eq_some p _ n₀ hm
        have h6 : 6 ≤ n₀ := hpre0.1
        have hmax : max n₀ 1 = n₀ := by omega
        rw [hmax] at hEq
        rw [hEq]
        have hz : hasMatchFrom idAt (some ']')
            (subAtF idAt ph fuel ((c :: r).get? (n₀ - 1))
              ((c :: r).drop n₀)) = false := by
          refine ih ((c :: r).get? (n₀ - 1)) ((c :: r).drop n₀) (some ']') ?_
            (Or.inr ⟨by decide, ?_⟩)
          · simp only [List.length_drop, List.length_cons]
            omega
          · rw [head?_drop]
            obtain ⟨cx, hcx, hxdig⟩ := id_class n₀ _ hpre0 (n₀ - 1) (by omega)
            rw [hcx] at hbt0
            have hwcx : isWordO (some cx) = true := digit_word cx hxdig
            rw [hwcx] at hbt0
            rcases hw : isWordO ((c :: r).get? n₀) with _ | _
            · rfl
            · rw [hw] at hbt0
              cases hbt0
        refine hasMatchFrom_skip_first idAt Char.isDigit id_first ph q _
          (fun c hc => hnd c hc) ?_
        rw [if_neg hphne, hlast]
        exact hz

/-- After the email pass, no position of the output admits an email match.
Same context invariant as `idRemove`; the placeholder has the shape
`[` letters `]`. -/
theorem emailRemove (ws : List Char) (hwsne : ws ≠ [])
    (hws : ws.all Char.isAlpha = true) :
    ∀ (fuel : Nat) (p : Option Char) (l : List Char) (q : Option Char),
      l.length ≤ fuel →
      (isWordO q = isWordO p ∨
        (isWordO q = false ∧ isWordO l.head? = false)) →
      hasMatchFrom emailAt q
        (subAtF emailAt ('[' :: ws ++ [']']) fuel p l) = false := by
  have hh : ('[' :: ws ++ [']'] : List Char).head? = some '[' := by simp
  have hphne : ('[' :: ws ++ [']'] : List Char) ≠ [] := by simp
  intro fuel
  induction fuel with
  | zero =>
    intro p l q hl _
    have : l = [] := List.length_eq_zero.mp (Nat.le_zero.mp hl)
    subst this
    simpa [subAtF, hasMatchFrom] using email_nil q
  | succ fuel ih =>
    intro p l q hl hinv
    cases l with
    | nil => simpa [subAtF, hasMatchFrom] using email_nil q
    | cons c r =>
      have hr : r.length ≤ fuel := by
        simp only [List.length_cons] at hl
        omega
      rcases hm : emailAt p (c :: r) with _ | n₀
      · have hEq : subAtF emailAt ('[' :: ws ++ [']']) (fuel + 1) p (c :: r) =
            c :: subAtF emailAt ('[' :: ws ++ [']']) fuel (some c) r := by
          simp [subAtF, hm]
        rw [hEq, hasMatchFrom_cons_false]
        refine ⟨?_, ih (some c) r (some c) hr (Or.inl rfl)⟩
        by_contra h
        rw [Bool.not_eq_false] at h
        obtain ⟨n, hn⟩ := Option.isSome_iff_exists.mp h
        obtain ⟨hpre, hbl, hbt⟩ := emailAt_eq_some q _ n hn
        rcases hinv with hqp | ⟨hq, hhead⟩
        · have h6 : 6 ≤ n := email_H4 n _ hpre
          have hpre' : emailPre n
              (subAtF emailAt ('[' :: ws ++ [']']) (fuel + 1) p (c :: r)) := by
            rw [hEq]; exact hpre
          rcases subAtF_diverge emailAt ('[' :: ws ++ [']']) hphne (fuel + 1) p
            (c :: r) hl (n + 1) with hleft | ⟨i, hin, htakei, hget, n₁, hm1⟩
          · have htaken : (subAtF emailAt ('[' :: ws ++ [']'])
                (fuel + 1) p (c :: r)).take n = (c :: r).take n := by
              have hcast := congrArg (List.take n) hleft
              rw [List.take_take, List.take_take,
                min_eq_left (by omega)] at hcast
              exact hcast
            have hpreIn : emailPre n (c :: r) := email_H2 n _ _ hpre' htaken.symm
            have hg1 := get?_eq_of_take_eq _ _ (n + 1) (n - 1) hleft (by omega)
            have hg2 := get?_eq_of_take_eq _ _ (n + 1) n hleft (by omega)
            have hblIn : (isWordO p != isWordO ((c :: r) : List Char).head?) =
                true := by
              rw [← hqp]
              exact hbl
            have hbtIn : (isWordO (((c :: r) : List Char).get? (n - 1)) !=
                isWordO (((c :: r) : List Char).get? n)) = true := by
              rw [← hg1, ← hg2, hEq]
              exact hbt
            have hcontra := emailAt_isSome p (c :: r) n hpreIn hblIn hbtIn
            rw [hm] at hcontra
            cases hcontra
          · rcases Nat.lt_or_ge i n with hilt | hige
            · obtain ⟨ci, hci, hclsci⟩ := email_class n _ hpre' i hilt
              rw [hget, hh] at hci
              injection hci with hci
              rw [← hci] at hclsci
              have : (localChar '[' || '[' = '@' || domainChar '[' ||
                  '[' = '.' || tldChar '[') = false := by decide
              rw [this] at hclsci
              cases hclsci
            · have hieq : i = n := by omega
              subst hieq
              have hctxne : ¬ i = 0 := by omega
              rw [if_neg hctxne] at hm1
              have hgetout : (subAtF emailAt ('[' :: ws ++ [']'])
                  (fuel + 1) p (c :: r)).get? i = some '[' := by
                rw [hget, hh]
              have hbt' : (isWordO
                  ((subAtF emailAt ('[' :: ws ++ [']'])
                    (fuel + 1) p (c :: r)).get? (i - 1)) !=
                  isWordO (some '[')) = true := by
                rw [← hgetout, hEq]
                exact hbt
              have hword : isWordO ((subAtF emailAt ('[' :: ws ++ [']'])
                  (fuel + 1) p (c :: r)).get? (i - 1)) = true := by
                rcases hw : isWordO ((subAtF emailAt ('[' :: ws ++ [']'])
                    (fuel + 1) p (c :: r)).get? (i - 1)) with _ | _
                · rw [hw] at hbt'
                  cases hbt'
                · rfl
              obtain ⟨hpre1, hbl1, _⟩ := emailAt_eq_some _ _ n₁ hm1
              have hctxeq : ((c :: r) : List Char).get? (i - 1) =
                  (subAtF emailAt ('[' :: ws ++ [']'])
                    (fuel + 1) p (c :: r)).get? (i - 1) :=
                (get?_eq_of_take_eq _ _ i (i - 1) htakei (by omega)).symm
              rw [head?_drop, hctxeq, hword] at hbl1
              have hafter : isWordO (((c :: r) : List Char).get? i) = false := by
                rcases hw : isWordO (((c :: r) : List Char).get? i) with _ | _
                · rfl
                · rw [hw] at hbl1
                  cases hbl1
              have htaken : (subAtF emailAt ('[' :: ws ++ [']'])
                  (fuel + 1) p (c :: r)).take i = (c :: r).take i := htakei
              have hpreIn : emailPre i (c :: r) := by
                refine email_H2 i _ _ ?_ htaken.symm
                rw [hEq]; exact hpre
              have hblIn : (isWordO p != isWordO ((c :: r) : List Char).head?) =
                  true := by
                rw [← hqp]
                exact hbl
              have hbtIn : (isWordO (((c :: r) : List Char).get? (i - 1)) !=
                  isWordO (((c :: r) : List Char).get? i)) = true := by
                rw [hctxeq, hword, hafter]
                rfl
              have hcontra := emailAt_isSome p (c :: r) i hpreIn hblIn hbtIn
              rw [hm] at hcontra
              cases hcontra
        · have hbl' : (isWordO q != isWordO (some c)) = true := by
            simpa using hbl
          have hch : isWordO ((c :: r) : List Char).head? = isWordO (some c) :=
            rfl
          rw [hch] at hhead
          rw [hq, hhead] at hbl'
          cases hbl'
      · have hEq : subAtF emailAt ('[' :: ws ++ [']']) (fuel + 1) p (c :: r) =
            ('[' :: ws ++ [']']) ++
              subAtF emailAt ('[' :: ws ++ [']']) fuel
                ((c :: r).get? (max n₀ 1 - 1)) ((c :: r).drop (max n₀ 1)) := by
          simp [subAtF, hm]
        obtain ⟨hpre0, hbl0, hbt0⟩ := emailAt_eq_some p _ n₀ hm
        have h6 : 6 ≤ n₀ := email_H4 n₀ _ hpre0
        have hmax : max n₀ 1 = n₀ := by omega
        rw [hmax] at hEq
        rw [hEq]
        have hz : hasMatchFrom emailAt (some ']')
            (subAtF emailAt ('[' :: ws ++ [']']) fuel ((c :: r).get? (n₀ - 1))
              ((c :: r).drop n₀)) = false := by
          refine ih ((c :: r).get? (n₀ - 1)) ((c :: r).drop n₀) (some ']')
            (by simp only [List.length_drop, List.length_cons]; omega) ?_
          rcases hw : isWordO ((c :: r).get? (n₀ - 1)) with _ | _
          · refine Or.inl ?_
            decide
          · refine Or.inr ⟨by decide, ?_⟩
            rw [head?_drop]
            rcases hw2 : isWordO ((c :: r).get? n₀) with _ | _
            · rfl
            · rw [hw, hw2] at hbt0
              simp at hbt0
        have hshape : (('[' :: ws ++ [']']) : List Char) ++
            subAtF emailAt ('[' :: ws ++ [']']) fuel ((c :: r).get? (n₀ - 1))
              ((c :: r).drop n₀) =
            '[' :: (ws ++ ']' ::
              subAtF emailAt ('[' :: ws ++ [']']) fuel ((c :: r).get? (n₀ - 1))
                ((c :: r).drop n₀)) := by
          simp
        rw [hshape]
        exact hasMatchFrom_email_placeholder ws hwsne hws q _ hz

/-- The digit-run pass cannot create an email match: if the input admits no
email match at any position (with its true context characters), neither
does the output of the digit-run substitution. -/
theorem emailPreserveId (ws : List Char) (hwsne : ws ≠ [])
    (hws : ws.all Char.isAlpha = true) :
    ∀ (fuel : Nat) (p : Option Char) (l : List Char) (q : Option Char),
      l.length ≤ fuel →
      (isWordO q = isWordO p ∨
        (isWordO q = false ∧ isWordO l.head? = false)) →
      hasMatchFrom emailAt p l = false →
      hasMatchFrom emailAt q
        (subAtF idAt ('[' :: ws ++ [']']) fuel p l) = false := by
  have hh : ('[' :: ws ++ [']'] : List Char).head? = some '[' := by simp
  have hphne : ('[' :: ws ++ [']'] : List Char) ≠ [] := by simp
  intro fuel
  induction fuel with
  | zero =>
    intro p l q hl _ _
    have : l = [] := List.length_eq_zero.mp (Nat.le_zero.mp hl)
    subst this
    simpa [subAtF, hasMatchFrom] using email_nil q
  | succ fuel ih =>
    intro p l q hl hinv hno
    cases l with
    | nil => simpa [subAtF, hasMatchFrom] using email_nil q
    | cons c r =>
      have hr : r.length ≤ fuel := by
        simp only [List.length_cons] at hl
        omega
      have hno' := (hasMatchFrom_cons_false emailAt p c r).mp hno
      rcases hm : idAt p (c :: r) with _ | n₀
      · have hEq : subAtF idAt ('[' :: ws ++ [']']) (fuel + 1) p (c :: r) =
            c :: subAtF idAt ('[' :: ws ++ [']']) fuel (some c) r := by
          simp [subAtF, hm]
        rw [hEq, hasMatchFrom_cons_false]
        refine ⟨?_, ih (some c) r (some c) hr (Or.inl rfl) hno'.2⟩
        by_contra h
        rw [Bool.not_eq_false] at h
        obtain ⟨n, hn⟩ := Option.isSome_iff_exists.mp h
        obtain ⟨hpre, hbl, hbt⟩ := emailAt_eq_some q _ n hn
        rcases hinv with hqp | ⟨hq, hhead⟩
        · have h6 : 6 ≤ n := email_H4 n _ hpre
          have hpre' : emailPre n
              (subAtF idAt ('[' :: ws ++ [']']) (fuel + 1) p (c :: r)) := by
            rw [hEq]; exact hpre
          rcases subAtF_diverge idAt ('[' :: ws ++ [']']) hphne (fuel + 1) p
            (c :: r) hl (n + 1) with hleft | ⟨i, hin, htakei, hget, n₁, hm1⟩
          · have htaken : (subAtF idAt ('[' :: ws ++ [']'])
                (fuel + 1) p (c :: r)).take n = (c :: r).take n := by
              have hcast := congrArg (List.take n) hleft
              rw [List.take_take, List.take_take,
                min_eq_left (by omega)] at hcast
              exact hcast
            have hpreIn : emailPre n (c :: r) := email_H2 n _ _ hpre' htaken.symm
            have hg1 := get?_eq_of_take_eq _ _ (n + 1) (n - 1) hleft (by omega)
            have hg2 := get?_eq_of_take_eq _ _ (n + 1) n hleft (by omega)
            have hblIn : (isWordO p != isWordO ((c :: r) : List Char).head?) =
                true := by
              rw [← hqp]
              exact hbl
            have hbtIn : (isWordO (((c :: r) : List Char).get? (n - 1)) !=
                isWordO (((c :: r) : List Char).get? n)) = true := by
              rw [← hg1, ← hg2, hEq]
              exact hbt
            have hcontra := emailAt_isSome p (c :: r) n hpreIn hblIn hbtIn
            rw [hno'.1] at hcontra
            cases hcontra
          · rcases Nat.lt_or_ge i n with hilt | hige
            · obtain ⟨ci, hci, hclsci⟩ := email_class n _ hpre' i hilt
              rw [hget, hh] at hci
              injection hci with hci
              rw [← hci] at hclsci
              have : (localChar '[' || '[' = '@' || domainChar '[' ||
                  '[' = '.' || tldChar '[') = false := by decide
              rw [this] at hclsci
              cases hclsci
            · have hieq : i = n := by omega
              subst hieq
              have hctxne : ¬ i = 0 := by omega
              rw [if_neg hctxne] at hm1
              have hgetout : (subAtF idAt ('[' :: ws ++ [']'])
                  (fuel + 1) p (c :: r)).get? i = some '[' := by
                rw [hget, hh]
              have hbt' : (isWordO
                  ((subAtF idAt ('[' :: ws ++ [']'])
                    (fuel + 1) p (c :: r)).get? (i - 1)) !=
                  isWordO (some '[')) = true := by
                rw [← hgetout, hEq]
                exact hbt
              have hword : isWordO ((subAtF idAt ('[' :: ws ++ [']'])
                  (fuel + 1) p (c :: r)).get? (i - 1)) = true := by
                rcases hw : isWordO ((subAtF idAt ('[' :: ws ++ [']'])
                    (fuel + 1) p (c :: r)).get? (i - 1)) with _ | _
                · rw [hw] at hbt'
                  cases hbt'
                · rfl
              obtain ⟨hpre1, hbl1, _⟩ := idAt_eq_some _ _ n₁ hm1
              obtain ⟨cd, hcd, hddig⟩ := id_class n₁ _ hpre1 0 (by
                have := hpre1.1
                omega)
              rw [List.get?_zero] at hcd
              have hctxeq : ((c :: r) : List Char).get? (i - 1) =
                  (subAtF idAt ('[' :: ws ++ [']'])
                    (fuel + 1) p (c :: r)).get? (i - 1) :=
                (get?_eq_of_take_eq _ _ i (i - 1) htakei (by omega)).symm
              rw [hctxeq, hword, hcd] at hbl1
              have hwd : isWordO (some cd) = true := digit_word cd hddig
              rw [hwd] at hbl1
              cases hbl1
        · have hbl' : (isWordO q != isWordO (some c)) = true := by
            simpa using hbl
          have hch : isWordO ((c :: r) : List Char).head? = isWordO (some c) :=
            rfl
          rw [hch] at hhead
          rw [hq, hhead] at hbl'
          cases hbl'
      · have hEq : subAtF idAt ('[' :: ws ++ [']']) (fuel + 1) p (c :: r) =
            ('[' :: ws ++ [']']) ++
              subAtF idAt ('[' :: ws ++ [']']) fuel
                ((c :: r).get? (max n₀ 1 - 1)) ((c :: r).drop (max n₀ 1)) := by
          simp [subAtF, hm]
        obtain ⟨hpre0, hbl0, hbt0⟩ := idAt_eq_some p _ n₀ hm
        have h6 : 6 ≤ n₀ := hpre0.1
        have hmax : max n₀ 1 = n₀ := by omega
        rw [hmax] at hEq
        rw [hEq]
        have hrest : hasMatchFrom emailAt ((c :: r).get? (n₀ - 1))
            ((c :: r).drop n₀) = false := by
          have := hasMatchFrom_false_drop_ctx emailAt email_nil n₀ (c :: r) p
            hno
          rw [if_neg (by omega : ¬ n₀ = 0)] at this
          exact this
        have hz : hasMatchFrom emailAt (some ']')
            (subAtF idAt ('[' :: ws ++ [']']) fuel ((c :: r).get? (n₀ - 1))
              ((c :: r).drop n₀)) = false := by
          refine ih ((c :: r).get? (n₀ - 1)) ((c :: r).drop n₀) (some ']')
            (by simp only [List.length_drop, List.length_cons]; omega) ?_ hrest
          refine Or.inr ⟨by decide, ?_⟩
          rw [head?_drop]
          obtain ⟨cx, hcx, hxdig⟩ := id_class n₀ _ hpre0 (n₀ - 1) (by omega)
          rw [hcx] at hbt0
          have hwcx : isWordO (some cx) = true := digit_word cx hxdig
          rw [hwcx] at hbt0
          rcases hw2 : isWordO ((c :: r).get? n₀) with _ | _
          · rfl
          · rw [hw2] at hbt0
            cases hbt0
        have hshape : (('[' :: ws ++ [']']) : List Char) ++
            subAtF idAt ('[' :: ws ++ [']']) fuel ((c :: r).get? (n₀ - 1))
              ((c :: r).drop n₀) =
            '[' :: (ws ++ ']' ::
              subAtF idAt ('[' :: ws ++ [']']) fuel ((c :: r).get? (n₀ - 1))
                ((c :: r).drop n₀)) := by
          simp
        rw [hshape]
        exact hasMatchFrom_email_placeholder ws hwsne hws q _ hz

/-- After the four substitution passes of `_redact_pii_patterns`, none of
the four patterns matches anywhere in the output list. -/
theorem redactPiiList_clean (l : List Char) :
    hasMatchFrom ssnAt none (redactPiiList l) = false ∧
    hasMatchFrom phoneAt none (redactPiiList l) = false ∧
    hasMatchFrom emailAt none (redactPiiList l) = false ∧
    hasMatchFrom idAt none (redactPiiList l) = false := by
  have hplE : ('[' :: "EMAIL".toList ++ [']'] : List Char) =
      "[EMAIL]".toList := by decide
  have hplI : ('[' :: "ID".toList ++ [']'] : List Char) =
      "[ID]".toList := by decide
  have hA1 : hasMatchFrom ssnAt none (reSub ssnAt "[SSN]".toList l) = false :=
    genRemove ssnAt ssnPre (fun c => c.isDigit || c = '-') ssn_H1 ssn_H2
      ssnPre_class ssn_H4 "[SSN]".toList (by decide) (by decide) (by decide)
      l.length none l none le_rfl
  have hA2 : hasMatchFrom ssnAt none
      (reSub phoneAt "[PHONE]".toList (reSub ssnAt "[SSN]".toList l)) =
      false :=
    genPreserve ssnAt ssnPre (fun c => c.isDigit || c = '-') ssn_H1 ssn_H2
      ssnPre_class ssn_H4 phoneAt "[PHONE]".toList (by decide) (by decide)
      (by decide) (reSub ssnAt "[SSN]".toList l).length none
      (reSub ssnAt "[SSN]".toList l) none le_rfl hA1
  have hA3 : hasMatchFrom ssnAt none
      (reSub emailAt "[EMAIL]".toList
        (reSub phoneAt "[PHONE]".toList (reSub ssnAt "[SSN]".toList l))) =
      false :=
    genPreserve ssnAt ssnPre (fun c => c.isDigit || c = '-') ssn_H1 ssn_H2
      ssnPre_class ssn_H4 emailAt "[EMAIL]".toList (by decide) (by decide)
      (by decide)
      (reSub phoneAt "[PHONE]".toList (reSub ssnAt "[SSN]".toList l)).length
      none (reSub phoneAt "[PHONE]".toList (reSub ssnAt "[SSN]".toList l))
      none le_rfl hA2
  have hA4 : hasMatchFrom ssnAt none (redactPiiList l) = false :=
    genPreserve ssnAt ssnPre (fun c => c.isDigit || c = '-') ssn_H1 ssn_H2
      ssnPre_class ssn_H4 idAt "[ID]".toList (by decide) (by decide)
      (by decide)
      (reSub emailAt "[EMAIL]".toList
        (reSub phoneAt "[PHONE]".toList
          (reSub ssnAt "[SSN]".toList l))).length
      none
      (reSub emailAt "[EMAIL]".toList
        (reSub phoneAt "[PHONE]".toList (reSub ssnAt "[SSN]".toList l)))
      none le_rfl hA3
  have hB2 : hasMatchFrom phoneAt none
      (reSub phoneAt "[PHONE]".toList (reSub ssnAt "[SSN]".toList l)) =
      false :=
    genRemove phoneAt phonePre
      (fun c => c.isDigit || c = '(' || c = ')' || sepChar c) phone_H1
      phone_H2 phonePre_class phone_H4 "[PHONE]".toList (by decide)
      (by decide) (by decide) (reSub ssnAt "[SSN]".toList l).length none
      (reSub ssnAt "[SSN]".toList l) none le_rfl
  have hB3 : hasMatchFrom phoneAt none
      (reSub emailAt "[EMAIL]".toList
        (reSub phoneAt "[PHONE]".toList (reSub ssnAt "[SSN]".toList l))) =
      false :=
    genPreserve phoneAt phonePre
      (fun c => c.isDigit || c = '(' || c = ')' || sepChar c) phone_H1
      phone_H2 phonePre_class phone_H4 emailAt "[EMAIL]".toList (by decide)
      (by decide) (by decide)
      (reSub phoneAt "[PHONE]".toList (reSub ssnAt "[SSN]".toList l)).length
      none (reSub phoneAt "[PHONE]".toList (reSub ssnAt "[SSN]".toList l))
      none le_rfl hB2
  have hB4 : hasMatchFrom phoneAt none (redactPiiList l) = false :=
    genPreserve phoneAt phonePre
      (fun c => c.isDigit || c = '(' || c = ')' || sepChar c) phone_H1
      phone_H2 phonePre_class phone_H4 idAt "[ID]".toList (by decide)
      (by decide) (by decide)
      (reSub emailAt "[EMAIL]".toList
        (reSub phoneAt "[PHONE]".toList
          (reSub ssnAt "[SSN]".toList l))).length
      none
      (reSub emailAt "[EMAIL]".toList
        (reSub phoneAt "[PHONE]".toList (reSub ssnAt "[SSN]".toList l)))
      none le_rfl hB3
  have hC3' := emailRemove "EMAIL".toList (by decide) (by decide)
    (reSub phoneAt "[PHONE]".toList (reSub ssnAt "[SSN]".toList l)).length
    none (reSub phoneAt "[PHONE]".toList (reSub ssnAt "[SSN]".toList l))
    none le_rfl (Or.inl rfl)
  rw [hplE] at hC3'
  have hC3 : hasMatchFrom emailAt none
      (reSub emailAt "[EMAIL]".toList
        (reSub phoneAt "[PHONE]".toList (reSub ssnAt "[SSN]".toList l))) =
      false := hC3'
  have hC4' := emailPreserveId "ID".toList (by decide) (by decide)
    (reSub emailAt "[EMAIL]".toList
      (reSub phoneAt "[PHONE]".toList (reSub ssnAt "[SSN]".toList l))).length
    none
    (reSub emailAt "[EMAIL]".toList
      (reSub phoneAt "[PHONE]".toList (reSub ssnAt "[SSN]".toList l)))
    none le_rfl (Or.inl rfl) hC3
  rw [hplI] at hC4'
  have hC4 : hasMatchFrom emailAt none (redactPiiList l) = false := hC4'
  have hD4 : hasMatchFrom idAt none (redactPiiList l) = false :=
    idRemove "[ID]".toList (by decide) (by decide) (by decide)
      (reSub emailAt "[EMAIL]".toList
        (reSub phoneAt "[PHONE]".toList
          (reSub ssnAt "[SSN]".toList l))).length
      none
      (reSub emailAt "[EMAIL]".toList
        (reSub phoneAt "[PHONE]".toList (reSub ssnAt "[SSN]".toList l)))
      none le_rfl (Or.inl rfl)
  exact ⟨hA4, hB4, hC4, hD4⟩

/-- C5: the original claim is false: the audit snippet of this 41-character
text retains the digit run "123456" (the code's digit-run regex requires
word boundaries, and here the run is flanked by letters), so the snippet
does contain a run of six or more digits. -/
theorem claim_C5_counterexample :
    containsDigitRun 6
      (auditSnippet "a123456bxxxxxxxxxxxxxxxxxxxxxxxxxxxxxxxxx") = true := by
  decide

/-- C5 (amended): for every input text, the audit snippet contains no match
of any of the four redaction regexes as the code matches them: the SSN-like
pattern, the phone-like pattern, the email-like pattern, or a
word-boundary-delimited run of six or more digits. -/
theorem claim_C5_redaction (text : String) :
    hasMatch ssnAt (auditSnippet text) = false ∧
    hasMatch phoneAt (auditSnippet text) = false ∧
    hasMatch emailAt (auditSnippet text) = false ∧
    hasMatch idAt (auditSnippet text) = false := by
  by_cases h : text = "" ∨ text.length ≤ 20 * 2
  · have hsnip : auditSnippet text = redactedMarker := by
      simp only [auditSnippet, createSnippet, if_pos h]
    rw [hsnip]
    exact ⟨by decide, by decide, by decide, by decide⟩
  · have hsnip : auditSnippet text =
        redactPii (pyTake text 20 ++ "..." ++ takeLast text 20) := by
      simp only [auditSnippet, createSnippet, if_neg h]
    rw [hsnip]
    exact redactPiiList_clean
      (pyTake text 20 ++ "..." ++ takeLast text 20).toList

end Demo
